import Mathlib

/-!
# Verification of the MHSA visualizer attention engine

Shallow embedding of the attention-computation core of the
`self_attention_visualizer` repository:

* `src/js/math.js`   — `MathUtils` (matmul, transpose, softmax, randomMatrix, …)
* `src/js/mhsa.js`   — `MultiHeadSelfAttention` (constructor, the two weight
  loaders, `initializeRandomWeights`, `scaledDotProductAttention`,
  `linearProjection`, `forward`)

Matrices are `List (List ℝ)` in row-major order, mirroring the JS
`number[][]` arrays.  JavaScript runtime failures that the engine can
actually hit (reading a property of `undefined`/`null`, e.g. `A[0].length`
on an empty array or `heads[h].Wq` on a missing head) are modelled as an
explicit `JsError.typeError`; explicitly `throw new Error(msg)` statements
are modelled as `JsError.jsError msg`.  Out-of-range reads that JavaScript
silently turns into `undefined`/`NaN` *inside an arithmetic expression*
(possible only for ragged matrices, which the engine never constructs) are
modelled with `getD`-style defaults; every theorem below restricts itself
to the rectangular well-formed shapes on which the two semantics agree.
-/

noncomputable section

/-- Row-major matrix of real numbers, the model of the JS `number[][]`. -/
abbrev Mat : Type := List (List ℝ)

/-- Errors observable from the engine.  `typeError` models a JavaScript
`TypeError` raised by a property access on `undefined`/`null`; `jsError msg`
models an explicitly thrown `new Error(msg)`.  The remaining constructors
name the error classes of the specification's taxonomy (`NotInitialized`,
`InvalidParameter`, `MalformedWeights`); the source never constructs them,
they exist so that claims mentioning them can be stated. -/
inductive JsError where
  | typeError : JsError
  | jsError : String → JsError
  | notInitialized : JsError
  | invalidParameter : JsError
  | malformedWeights : JsError
deriving DecidableEq, Repr

/-- `Math.max(...row)` for a non-empty row.  (JavaScript returns `-Infinity`
on an empty spread; the value on `[]` is irrelevant to every theorem below,
which all restrict to non-empty rows where this model is exact.) -/
def jsMax : List ℝ → ℝ
  | [] => 0
  | x :: xs => xs.foldl max x

namespace MathUtils

/-- `MathUtils.softmax(scores, temperature)` from `src/js/math.js`:
for each row take the row maximum, map `s ↦ exp((s - max)/temperature)`,
and divide by the row sum of those exponentials.  The function performs no
validation of `temperature`. -/
def softmax (scores : Mat) (temperature : ℝ) : Mat :=
  scores.map (fun row =>
    let maxScore := jsMax row
    let expScores := row.map (fun s => Real.exp ((s - maxScore) / temperature))
    let sumExp := expScores.sum
    expScores.map (fun e => e / sumExp))

/-- `A[0].length`; accessing `[0]` of an empty array raises a `TypeError`. -/
def headLen (A : Mat) : Except JsError Nat :=
  match A.head? with
  | none => .error .typeError
  | some r => .ok r.length

/-- `MathUtils.matmul(A, B)` from `src/js/math.js`.  `A[0].length` and
`B[0].length` throw on empty inputs; the inner sum reads `B[k][j]`, which
throws when `B[k]` is `undefined` (`k ≥ B.length`).  Reads of `A[i][k]` or
`B[k][j]` past the end of an existing row would give `NaN` in JS; they are
modelled with default `0` and are unreachable for rectangular inputs. -/
def matmul (A B : Mat) : Except JsError Mat := do
  let colsA ← headLen A
  let colsB ← headLen B
  A.mapM (fun row =>
    (List.range colsB).mapM (fun j =>
      (List.range colsA).foldlM (fun sum k =>
        match B.get? k with
        | none => .error JsError.typeError
        | some bk => .ok (sum + row.getD k 0 * bk.getD j 0)) (0 : ℝ)))

/-- `MathUtils.transpose(A)` from `src/js/math.js`; `A[0].length` throws on
an empty matrix.  Entries `A[i][j]` past a ragged row end would be
`undefined` in JS; modelled with default `0`, unreachable for rectangular
inputs. -/
def transpose (A : Mat) : Except JsError Mat := do
  let cols ← headLen A
  .ok ((List.range cols).map (fun j => A.map (fun row => row.getD j 0)))

/-- `MathUtils.randomMatrix(rows, cols)` from `src/js/math.js`, with the
`Math.random()` stream made explicit as the parameter `rand i j`
(the draw used for entry `(i, j)`). -/
def randomMatrix (rand : Nat → Nat → ℝ) (rows cols : Nat) : Mat :=
  let scale := Real.sqrt (2.0 / ((rows : ℝ) + (cols : ℝ)))
  (List.range rows).map (fun i =>
    (List.range cols).map (fun j => (rand i j - 0.5) * 2 * scale))

end MathUtils

/-! ## Pure ("mathematical") counterparts

Total functions that the fallible embeddings above compute on well-shaped
inputs; all refinement lemmas relating the two are proved below. -/

/-- Inner product of a row with column `j` of `B` (pairs the row with the
rows of `B`, as the `k` loop of `matmul` does). -/
def dotCol (row : List ℝ) (B : Mat) (j : Nat) : ℝ :=
  ((row.zip B).map (fun p => p.1 * p.2.getD j 0)).sum

/-- Pure matrix product: what `MathUtils.matmul` returns on non-empty
rectangular inputs with compatible dimensions. -/
def matmulP (A B : Mat) : Mat :=
  A.map (fun row => (List.range ((B.headD []).length)).map (fun j => dotCol row B j))

/-- Pure transpose: what `MathUtils.transpose` returns on non-empty input. -/
def transposeP (A : Mat) : Mat :=
  (List.range ((A.headD []).length)).map (fun j => A.map (fun row => row.getD j 0))

/-- Formalisation of the spec's description of `softmaxRows`: "for each
row, subtract the row maximum, divide by `temperature`, exponentiate,
normalize by the row sum". -/
def softmaxRowsSpec (S : Mat) (temperature : ℝ) : Mat :=
  S.map (fun row =>
    let shifted := row.map (fun s => s - jsMax row)
    let scaled := shifted.map (fun s => s / temperature)
    let exps := scaled.map Real.exp
    exps.map (fun e => e / exps.sum))

/-! ## Basic lemmas about the math layer -/

theorem headLen_ok {A : Mat} (h : A ≠ []) :
    MathUtils.headLen A = .ok ((A.headD []).length) := by
  cases A with
  | nil => exact absurd rfl h
  | cons r rs => simp [MathUtils.headLen]

theorem sum_map_div (l : List ℝ) (c : ℝ) :
    (l.map (fun x => x / c)).sum = l.sum / c := by
  induction l with
  | nil => simp
  | cons x xs ih => simp [ih, add_div]

theorem list_sum_pos {l : List ℝ} (h : ∀ x ∈ l, 0 < x) (hne : l ≠ []) :
    0 < l.sum := by
  induction l with
  | nil => exact absurd rfl hne
  | cons x xs ih =>
    rcases List.eq_nil_or_concat xs with h0 | _
    · subst h0; simpa using h x (by simp)
    · have hx : 0 < x := h x (by simp)
      cases xs with
      | nil => simpa using hx
      | cons y ys =>
        have : 0 < (y :: ys).sum := ih (fun z hz => h z (by simp [hz])) (by simp)
        simpa using add_pos hx this

theorem list_single_le_sum {l : List ℝ} (h : ∀ x ∈ l, 0 ≤ x) :
    ∀ x ∈ l, x ≤ l.sum := by
  induction l with
  | nil => intro x hx; simp at hx
  | cons y ys ih =>
    intro x hx
    have hy : 0 ≤ y := h y (by simp)
    have hys : 0 ≤ ys.sum := List.sum_nonneg (fun z hz => h z (by simp [hz]))
    rcases List.mem_cons.mp hx with h1 | h1
    · subst h1; simp only [List.sum_cons]; linarith
    · have := ih (fun z hz => h z (by simp [hz])) x h1
      simp only [List.sum_cons]
      linarith

/-- The code's softmax coincides with the spec's verbal four-step recipe,
for every matrix and every temperature (no guard distinguishes them). -/
theorem softmax_eq_spec (S : Mat) (t : ℝ) :
    MathUtils.softmax S t = softmaxRowsSpec S t := by
  unfold MathUtils.softmax softmaxRowsSpec
  refine List.map_congr_left (fun row _ => ?_)
  have hmap : row.map (Real.exp ∘ (fun s => s * t⁻¹) ∘ fun s => s - jsMax row)
      = row.map (fun s => Real.exp ((s - jsMax row) * t⁻¹)) := by
    refine List.map_congr_left (fun s _ => ?_)
    simp [Function.comp]
  simp only [List.map_map, div_eq_mul_inv, hmap]

theorem foldl_max_map_add (xs : List ℝ) (a c : ℝ) :
    (xs.map (fun s => s + c)).foldl max (a + c) = xs.foldl max a + c := by
  induction xs generalizing a with
  | nil => simp
  | cons y ys ih =>
    simp only [List.map_cons, List.foldl_cons]
    have h1 : (a + c) ⊔ (y + c) = (a ⊔ y) + c := by
      rcases le_total a y with h | h
      · rw [max_eq_right h, max_eq_right (by linarith : a + c ≤ y + c)]
      · rw [max_eq_left h, max_eq_left (by linarith : y + c ≤ a + c)]
    rw [h1, ih]

theorem jsMax_map_add (row : List ℝ) (c : ℝ) :
    jsMax (row.map (fun s => s + c)) = jsMax row + c ∨ row = [] := by
  cases row with
  | nil => exact Or.inr rfl
  | cons x xs =>
    exact Or.inl (by simpa [jsMax] using foldl_max_map_add xs x c)

/-- The exponential scores of a row are unchanged by shifting every score
by `c` (the row maximum shifts along, so the differences cancel). -/
theorem expScores_shift (row : List ℝ) (c t : ℝ) :
    (row.map (fun s => s + c)).map
      (fun s => Real.exp ((s - jsMax (row.map (fun s => s + c))) / t)) =
    row.map (fun s => Real.exp ((s - jsMax row) / t)) := by
  rcases jsMax_map_add row c with hmax | hnil
  · rw [hmax, List.map_map]
    refine List.map_congr_left (fun s _ => ?_)
    have h2 : s + c - (jsMax row + c) = s - jsMax row := by ring
    simp [Function.comp, h2]
  · subst hnil; simp

/-! ## Claims about the softmax (C6, C7, C9) -/

/-- C6 (counterexample): `softmax` performs no temperature validation.
At the non-positive temperature `-1` it returns an ordinary probability
row (here the uniform one) instead of failing with `InvalidParameter`:
the claimed failure does not happen. -/
theorem softmax_no_invalid_parameter_cex :
    MathUtils.softmax [[(1 : ℝ), 1]] (-1) = [[1 / 2, 1 / 2]] ∧ (-1 : ℝ) ≤ 0 := by
  constructor
  · simp [MathUtils.softmax, jsMax]
    norm_num
  · norm_num

/-- C6 (amended): `softmax` applies no guard on `temperature` at all — for
every score matrix and every temperature, non-positive included, it just
computes the subtract-max / divide-by-temperature / exponentiate /
normalize formula and never raises an error. -/
theorem softmax_total_no_guard (S : Mat) (t : ℝ) :
    MathUtils.softmax S t = softmaxRowsSpec S t :=
  softmax_eq_spec S t

/-- C7: for a matrix with non-empty rows and positive temperature, every
row of the softmax sums to 1 and every entry lies in `[0, 1]`; moreover the
computation is exactly the spec's subtract-max / divide / exponentiate /
normalize recipe. -/
theorem softmax_rows_sum_one (S : Mat) (t : ℝ) (ht : 0 < t) (hS : S ≠ [])
    (hrows : ∀ r ∈ S, r ≠ []) :
    (∀ row ∈ MathUtils.softmax S t, row.sum = 1 ∧ ∀ x ∈ row, 0 ≤ x ∧ x ≤ 1) ∧
    MathUtils.softmax S t = softmaxRowsSpec S t := by
  refine ⟨?_, softmax_eq_spec S t⟩
  intro row hrow
  simp only [MathUtils.softmax, List.mem_map] at hrow
  obtain ⟨r, hrS, hr⟩ := hrow
  have hEpos : ∀ x ∈ r.map (fun s => Real.exp ((s - jsMax r) / t)), 0 < x := by
    intro x hx
    simp only [List.mem_map] at hx
    obtain ⟨s, _, hs⟩ := hx
    exact hs ▸ Real.exp_pos _
  have hEne : r.map (fun s => Real.exp ((s - jsMax r) / t)) ≠ [] := by
    simpa using hrows r hrS
  have hsum : 0 < (r.map (fun s => Real.exp ((s - jsMax r) / t))).sum :=
    list_sum_pos hEpos hEne
  constructor
  · rw [← hr, sum_map_div]
    exact div_self (ne_of_gt hsum)
  · intro x hx
    rw [← hr] at hx
    simp only [List.mem_map] at hx
    obtain ⟨e, heE, he⟩ := hx
    have heE2 : e ∈ r.map (fun s => Real.exp ((s - jsMax r) / t)) :=
      List.mem_map.mpr heE
    have he1 : 0 < e := hEpos e heE2
    have he2 : e ≤ (r.map (fun s => Real.exp ((s - jsMax r) / t))).sum :=
      list_single_le_sum (fun z hz => (hEpos z hz).le) e heE2
    constructor
    · rw [← he]; exact div_nonneg he1.le hsum.le
    · rw [← he]; exact (div_le_one hsum).mpr he2

/-- Witness for C7 at `S = [[0,1],[2,3]]`, `t = 1`. -/
theorem softmax_rows_sum_one_witness :
    (∀ row ∈ MathUtils.softmax [[(0 : ℝ), 1], [2, 3]] 1,
      row.sum = 1 ∧ ∀ x ∈ row, 0 ≤ x ∧ x ≤ 1) ∧
    MathUtils.softmax [[(0 : ℝ), 1], [2, 3]] 1 =
      softmaxRowsSpec [[(0 : ℝ), 1], [2, 3]] 1 :=
  softmax_rows_sum_one [[(0 : ℝ), 1], [2, 3]] 1 (by norm_num) (by simp)
    (by
      intro r hr
      simp only [List.mem_cons, List.not_mem_nil, or_false] at hr
      rcases hr with rfl | rfl <;> simp)

/-- C9: `softmax` is shift-invariant — adding a constant `c` to every
element of row `i` of the score matrix leaves the softmax output
unchanged. -/
theorem softmax_shift_invariance (S : Mat) (t c : ℝ) (i : Nat) (ht : 0 < t) :
    MathUtils.softmax (S.modify (fun row => row.map (fun s => s + c)) i) t =
      MathUtils.softmax S t := by
  induction S generalizing i with
  | nil => rw [List.modify_nil]
  | cons r rs ih =>
    cases i with
    | zero =>
      rw [List.modify_zero_cons]
      simp only [MathUtils.softmax, List.map_cons]
      rw [expScores_shift]
    | succ n =>
      rw [List.modify_succ_cons]
      simp only [MathUtils.softmax, List.map_cons]
      congr 1
      simpa [MathUtils.softmax] using ih n

/-- Witness for C9 at `S = [[1,2],[3,4]]`, `t = 1`, `c = 5`, `i = 0`. -/
theorem softmax_shift_invariance_witness :
    MathUtils.softmax
        (([[(1 : ℝ), 2], [3, 4]] : Mat).modify
          (fun row => row.map (fun s => s + 5)) 0) 1 =
      MathUtils.softmax [[(1 : ℝ), 2], [3, 4]] 1 :=
  softmax_shift_invariance [[(1 : ℝ), 2], [3, 4]] 1 5 0 (by norm_num)

/-! ## The attention engine (`src/js/mhsa.js`)

`MultiHeadSelfAttention` instance state.  JS fields holding `null` /
`undefined` are `Option`s; `numHeads`, `headDim`, `embedDim` are naturals
(the engine only ever handles non-negative integer dimensions). -/

/-- One entry of `this.heads`: per-head projection weights, the optional
per-head output projection and optional biases. -/
structure Head where
  Wq : Option Mat
  Wk : Option Mat
  Wv : Option Mat
  Wo : Option Mat
  bq : Option (List ℝ)
  bk : Option (List ℝ)
  bv : Option (List ℝ)
deriving Inhabited

/-- The mutable state of a `MultiHeadSelfAttention` object. -/
structure Engine where
  embedDim : Nat
  numHeads : Nat
  headDim : Nat
  temperature : ℝ
  heads : List Head
  Wo : Option Mat
  bo : Option (List ℝ)
  isRealModel : Bool
  modelName : Option String
  useBias : Bool

/-- The `constructor(embedDim, numHeads, temperature)`: an engine in the
uninitialized state (`heads` empty, no projections loaded).
`Math.floor(embedDim / numHeads)` is natural division (the claims never
exercise `numHeads = 0`, where JS would produce `Infinity`). -/
def mkEngine (embedDim numHeads : Nat) (temperature : ℝ) : Engine :=
  { embedDim := embedDim
    numHeads := numHeads
    headDim := embedDim / numHeads
    temperature := temperature
    heads := []
    Wo := none
    bo := none
    isRealModel := false
    modelName := none
    useBias := false }

/-- `initializeRandomWeights()`, with the `Math.random()` stream made
explicit: `rand c i j` is the draw used for entry `(i, j)` of the `c`-th
`randomMatrix` call (calls `4h .. 4h+3` build head `h`'s `Wq, Wk, Wv, Wo`;
call `4·numHeads` builds the combined `Wo`). -/
def initializeRandomWeights (e : Engine) (rand : Nat → Nat → Nat → ℝ) : Engine :=
  let heads : List Head := (List.range e.numHeads).map (fun h =>
    { Wq := some (MathUtils.randomMatrix (rand (4 * h)) e.embedDim e.headDim)
      Wk := some (MathUtils.randomMatrix (rand (4 * h + 1)) e.embedDim e.headDim)
      Wv := some (MathUtils.randomMatrix (rand (4 * h + 2)) e.embedDim e.headDim)
      Wo := some (MathUtils.randomMatrix (rand (4 * h + 3)) e.headDim e.embedDim)
      bq := none
      bk := none
      bv := none })
  { e with
    heads := heads
    Wo := some (MathUtils.randomMatrix (rand (4 * e.numHeads))
      (e.numHeads * e.headDim) e.embedDim)
    bo := none
    isRealModel := false
    modelName := some "Random Initialization"
    useBias := false }

/-! ### Raw weight bundles (the two external JSON shapes) -/

/-- One entry of a raw bundle's `heads` array; any field may be absent. -/
structure RawHead where
  Wq : Option Mat
  Wk : Option Mat
  Wv : Option Mat
  Wo : Option Mat
  bq : Option (List ℝ)
  bk : Option (List ℝ)
  bv : Option (List ℝ)

/-- The optional `config` block of a pre-extracted bundle. -/
structure RawConfig where
  num_heads : Option Nat
  head_dim : Option Nat
  embed_dim : Option Nat

/-- An externally supplied weight structure (either accepted shape).
`modelConfigIsRealModel` models `weights.modelConfig?.isRealModel`. -/
structure RawBundle where
  heads : Option (List RawHead)
  Wo : Option Mat
  bo : Option (List ℝ)
  config : Option RawConfig
  model_name : Option String
  modelConfigIsRealModel : Option Bool

/-- JS `config.x || d` for a numeric field with a pure default:
`undefined` and `0` are falsy, so both fall back to `d`. -/
def jsOr (o : Option Nat) (d : Nat) : Nat :=
  match o with
  | some n => if n = 0 then d else n
  | none => d

/-- JS `config.x || fallback` for a numeric field: `undefined` and `0` are
falsy, so both fall back (the fallback itself may throw). -/
def jsOrE (o : Option Nat) (fallback : Except JsError Nat) : Except JsError Nat :=
  match o with
  | some n => if n = 0 then fallback else .ok n
  | none => fallback

/-- `weights.heads[0].Wq[0].length`: the dimension inference of the
loaders; each step can hit `undefined` and raise a `TypeError`. -/
def inferHeadDim (hs : List RawHead) : Except JsError Nat :=
  match hs.head? with
  | none => .error .typeError
  | some h0 =>
    match h0.Wq with
    | none => .error .typeError
    | some wq =>
      match wq.head? with
      | none => .error .typeError
      | some r0 => .ok r0.length

/-- `weights.heads[0].Wq.length`. -/
def inferEmbedDim (hs : List RawHead) : Except JsError Nat :=
  match hs.head? with
  | none => .error .typeError
  | some h0 =>
    match h0.Wq with
    | none => .error .typeError
    | some wq => .ok wq.length

/-- `loadRealWeights(weights, modelName)` from `src/js/mhsa.js`, as a state
transformer: returns the optional error and the engine state after the
call (mutations made before a throw are kept, as on a JS object).  The
validation only rejects an *absent* `heads` or `Wo` (`!weights.heads`);
an empty `heads` array is truthy and passes, failing later with a
`TypeError` when `heads[0]` is read — after `numHeads` was already
reassigned. -/
def loadRealWeights (e : Engine) (w : RawBundle) (modelName : Option String) :
    Option JsError × Engine :=
  match w.heads, w.Wo with
  | none, _ => (some (.jsError "Invalid weight structure"), e)
  | some _, none => (some (.jsError "Invalid weight structure"), e)
  | some hs, some W =>
    let e1 := { e with numHeads := hs.length }
    match hs.head? with
    | none => (some .typeError, e1)
    | some h0 =>
      match h0.Wq with
      | none => (some .typeError, e1)
      | some wq =>
        match wq.head? with
        | none => (some .typeError, e1)
        | some r0 =>
          (none,
            { e1 with
              headDim := r0.length
              embedDim := wq.length
              heads := hs.map (fun h =>
                ({ Wq := h.Wq, Wk := h.Wk, Wv := h.Wv, Wo := h.Wo,
                   bq := h.bq, bk := h.bk, bv := h.bv } : Head))
              Wo := some W
              bo := w.bo
              isRealModel := true
              modelName := modelName
              useBias := h0.bq.isSome })

/-- The `{}` default for an absent `config` block
(`weights.config || {}`). -/
def emptyConfig : RawConfig :=
  { num_heads := none, head_dim := none, embed_dim := none }

/-- `loadPreExtractedWeights(weights, modelName)` from `src/js/mhsa.js`,
as a state transformer.  Dimensions come from the `config` block when its
fields are truthy, otherwise by inference from `heads[0]` (which can raise
a `TypeError`); the combined `Wo` is set to `null`; the last line reads
`weights.heads[0].bq`, so an *empty* `heads` array raises a `TypeError`
only after all other fields were already overwritten. -/
def loadPreExtractedWeights (e : Engine) (w : RawBundle) (modelName : Option String) :
    Option JsError × Engine :=
  match w.heads with
  | none => (some (.jsError "Invalid pre-extracted weight structure"), e)
  | some hs =>
    match jsOrE (w.config.getD emptyConfig).head_dim (inferHeadDim hs) with
    | .error err =>
      (some err, { e with
        numHeads := jsOr (w.config.getD emptyConfig).num_heads hs.length })
    | .ok hd =>
      match jsOrE (w.config.getD emptyConfig).embed_dim (inferEmbedDim hs) with
      | .error err =>
        (some err, { e with
          numHeads := jsOr (w.config.getD emptyConfig).num_heads hs.length
          headDim := hd })
      | .ok ed =>
        match hs.head? with
        | none =>
          (some .typeError, { e with
            numHeads := jsOr (w.config.getD emptyConfig).num_heads hs.length
            headDim := hd
            embedDim := ed
            heads := hs.map (fun h =>
              ({ Wq := h.Wq, Wk := h.Wk, Wv := h.Wv, Wo := h.Wo,
                 bq := h.bq, bk := h.bk, bv := h.bv } : Head))
            Wo := none
            bo := w.bo
            isRealModel := w.modelConfigIsRealModel ≠ some false
            modelName := some (modelName.getD
              (w.model_name.getD "Pre-extracted Model")) })
        | some h0 =>
          (none, { e with
            numHeads := jsOr (w.config.getD emptyConfig).num_heads hs.length
            headDim := hd
            embedDim := ed
            heads := hs.map (fun h =>
              ({ Wq := h.Wq, Wk := h.Wk, Wv := h.Wv, Wo := h.Wo,
                 bq := h.bq, bk := h.bk, bv := h.bv } : Head))
            Wo := none
            bo := w.bo
            isRealModel := w.modelConfigIsRealModel ≠ some false
            modelName := some (modelName.getD
              (w.model_name.getD "Pre-extracted Model"))
            useBias := h0.bq.isSome })

/-! ### Attention and the forward pass -/

/-- `linearProjection(X, W, b)` from `src/js/mhsa.js`: `matmul(X, W)` then,
when `b` is a non-empty vector, add `b[j]` to every row entry.  Passing an
absent `W` (as `forward` does for a head whose weights are missing) makes
`matmul` read `W[0]` of `undefined`: a `TypeError`. -/
def linearProjection (X : Mat) (W : Option Mat) (b : Option (List ℝ)) :
    Except JsError Mat :=
  match W with
  | none => .error .typeError
  | some W => do
    let result ← MathUtils.matmul X W
    match b with
    | some bv =>
      if 0 < bv.length then
        .ok (result.map (fun row => row.mapIdx (fun j x => x + bv.getD j 0)))
      else .ok result
    | none => .ok result

/-- `scaledDotProductAttention(Q, K, V)` from `src/js/mhsa.js` (with the
instance fields `headDim` and `temperature` passed explicitly): scores
`Q·Kᵀ`, scaled by `1/√headDim`, softmaxed with temperature, applied to
`V`.  Returns `(output, attentionWeights, scaledScores)`. -/
def scaledDotProductAttention (headDim : Nat) (temperature : ℝ) (Q K V : Mat) :
    Except JsError (Mat × Mat × Mat) := do
  let KT ← MathUtils.transpose K
  let scores ← MathUtils.matmul Q KT
  let scale := Real.sqrt (headDim : ℝ)
  let scaledScores := scores.map (fun row => row.map (fun v => v / scale))
  let attentionWeights := MathUtils.softmax scaledScores temperature
  let output ← MathUtils.matmul attentionWeights V
  .ok (output, attentionWeights, scaledScores)

/-- One entry of `forward`'s `headOutputs` array (the per-head trace). -/
structure HeadOut where
  Q : Mat
  K : Mat
  V : Mat
  output : Mat
  attentionWeights : Mat
  scores : Mat
  Wq : Option Mat
  Wk : Option Mat
  Wv : Option Mat
  Wo : Option Mat

/-- The record returned by `forward`. -/
structure ForwardOut where
  output : Mat
  headOutputs : List HeadOut
  headAttentions : List Mat
  concatenated : Mat
  headProjectedOutputs : Option (List Mat)

/-- `M[i][j]` read inside an arithmetic expression (JS would give
`NaN` out of range; the engine only reads in-range entries). -/
def jsEntry (M : Mat) (i j : Nat) : ℝ := (M.getD i []).getD j 0

/-- The accumulation loops of `forward`'s per-head merge:
`finalOutput[i][j] += M[i][j]` for `i < s`, `j < d` (in-place on `acc`). -/
def addIntoRange (acc M : Mat) (s d : Nat) : Mat :=
  acc.mapIdx (fun i row =>
    if i < s then row.mapIdx (fun j x => if j < d then x + jsEntry M i j else x)
    else row)

/-- The bias loops of `forward`: `finalOutput[i][j] += bo[j]` for
`i < s`, `j < d`. -/
def addBiasRange (acc : Mat) (b : List ℝ) (s d : Nat) : Mat :=
  acc.mapIdx (fun i row =>
    if i < s then row.mapIdx (fun j x => if j < d then x + b.getD j 0 else x)
    else row)

/-- The concatenation loops of `forward`: row `i` of the result is the
concatenation of row `i` of every head's `output`. -/
def concatRows (headOutputs : List HeadOut) (seqLen : Nat) : Mat :=
  (List.range seqLen).map (fun i =>
    (headOutputs.map (fun ho => ho.output.getD i [])).flatten)

/-- The body of `forward`'s head loop for head index `h`: read
`this.heads[h]` (a `TypeError` when absent), project `Q/K/V`, run
attention, record the trace, and push the per-head projection when the
head carries a `Wo`. -/
def forwardStep (e : Engine) (embeddings : Mat)
    (acc : List HeadOut × List Mat × List Mat) (h : Nat) :
    Except JsError (List HeadOut × List Mat × List Mat) :=
  match e.heads.get? h with
  | none => .error .typeError
  | some head => do
    let Q ← linearProjection embeddings head.Wq head.bq
    let K ← linearProjection embeddings head.Wk head.bk
    let V ← linearProjection embeddings head.Wv head.bv
    let (output, attentionWeights, scores) ←
      scaledDotProductAttention e.headDim e.temperature Q K V
    let ho : HeadOut :=
      { Q := Q, K := K, V := V, output := output,
        attentionWeights := attentionWeights, scores := scores,
        Wq := head.Wq, Wk := head.Wk, Wv := head.Wv, Wo := head.Wo }
    let headOutputs := acc.1 ++ [ho]
    let headAttentions := acc.2.1 ++ [attentionWeights]
    match head.Wo with
    | some Wo => do
      let projected ← MathUtils.matmul output Wo
      .ok (headOutputs, headAttentions, acc.2.2 ++ [projected])
    | none => .ok (headOutputs, headAttentions, acc.2.2)

/-- `forward(embeddings)` from `src/js/mhsa.js`.  After the head loop the
merge strategy is chosen by `headProjectedOutputs.length === numHeads`:
the per-head path copies projection 0, accumulates projections `1..` and
optionally the output bias over `i < seqLen`, `j < embedDim`; the fallback
path concatenates the head outputs and multiplies by the combined `Wo`
(a `TypeError` when `Wo` is `null`). -/
def forward (e : Engine) (embeddings : Mat) : Except JsError ForwardOut := do
  let seqLen := embeddings.length
  let (headOutputs, headAttentions, headProjectedOutputs) ←
    (List.range e.numHeads).foldlM (forwardStep e embeddings) ([], [], [])
  if headProjectedOutputs.length = e.numHeads then
    match headProjectedOutputs.head? with
    | none => .error .typeError
    | some first =>
      let acc := (List.range' 1 (e.numHeads - 1)).foldl
        (fun acc h => addIntoRange acc (headProjectedOutputs.getD h []) seqLen e.embedDim)
        first
      let finalOutput :=
        match e.bo with
        | some b =>
          if 0 < b.length then addBiasRange acc b seqLen e.embedDim else acc
        | none => acc
      let concatenated := concatRows headOutputs seqLen
      .ok { output := finalOutput, headOutputs := headOutputs,
            headAttentions := headAttentions, concatenated := concatenated,
            headProjectedOutputs :=
              if 0 < headProjectedOutputs.length then some headProjectedOutputs
              else none }
  else
    let concatenated := concatRows headOutputs seqLen
    match e.Wo with
    | none => .error .typeError
    | some W => do
      let finalOutput ← MathUtils.matmul concatenated W
      .ok { output := finalOutput, headOutputs := headOutputs,
            headAttentions := headAttentions, concatenated := concatenated,
            headProjectedOutputs :=
              if 0 < headProjectedOutputs.length then some headProjectedOutputs
              else none }

/-! ## Shapes and well-formedness -/

/-- `M` is a rectangular `R × C` matrix. -/
def MatShape (R C : Nat) (M : Mat) : Prop :=
  M.length = R ∧ ∀ r ∈ M, r.length = C

theorem MatShape.ne_nil {R C : Nat} {M : Mat} (h : MatShape R C M) (hR : 0 < R) :
    M ≠ [] := by
  intro hM
  have h1 := h.1
  rw [hM] at h1
  simp at h1
  omega

theorem MatShape.headD_len {R C : Nat} {M : Mat} (h : MatShape R C M) (hR : 0 < R) :
    (M.headD []).length = C := by
  cases M with
  | nil =>
    have h1 := h.1
    simp at h1
    omega
  | cons r rs => exact h.2 r (by simp)

/-- Well-formed head: `Wq/Wk/Wv` present with shape `E × D`, the optional
per-head `Wo` with shape `D × E`, optional biases of matching length. -/
def WFhead (E D : Nat) (hd : Head) : Prop :=
  (∃ M, hd.Wq = some M ∧ MatShape E D M) ∧
  (∃ M, hd.Wk = some M ∧ MatShape E D M) ∧
  (∃ M, hd.Wv = some M ∧ MatShape E D M) ∧
  (hd.Wo = none ∨ ∃ M, hd.Wo = some M ∧ MatShape D E M) ∧
  (hd.bq = none ∨ ∃ b, hd.bq = some b ∧ b.length = D) ∧
  (hd.bk = none ∨ ∃ b, hd.bk = some b ∧ b.length = D) ∧
  (hd.bv = none ∨ ∃ b, hd.bv = some b ∧ b.length = D)

/-- Well-formed (initialized) engine state: positive dimensions, one stored
head per `numHeads`, well-formed heads, and a well-sized optional `bo`. -/
def WFengine (e : Engine) : Prop :=
  0 < e.numHeads ∧ 0 < e.headDim ∧ 0 < e.embedDim ∧
  e.heads.length = e.numHeads ∧
  (∀ hd ∈ e.heads, WFhead e.embedDim e.headDim hd) ∧
  (e.bo = none ∨ ∃ b, e.bo = some b ∧ b.length = e.embedDim)

/-- Well-formed embeddings for an engine: non-empty, rows of width
`embedDim`. -/
def WFemb (e : Engine) (emb : Mat) : Prop :=
  emb ≠ [] ∧ ∀ r ∈ emb, r.length = e.embedDim

/-! ## Refinement: the fallible primitives compute the pure ones -/

theorem Except.okBind {α β : Type} (a : α) (f : α → Except JsError β) :
    (Except.ok a : Except JsError α) >>= f = f a := rfl

theorem mapM_ok {α β : Type} (l : List α) (f : α → β) :
    l.mapM (fun a => (.ok (f a) : Except JsError β)) = .ok (l.map f) := by
  induction l with
  | nil => rfl
  | cons x xs ih =>
    rw [List.mapM_cons, ih]
    rfl

theorem foldlM_ok {α β : Type} (l : List α) (g : β → α → β) (b : β)
    (f : β → α → Except JsError β) (hf : ∀ b a, a ∈ l → f b a = .ok (g b a)) :
    l.foldlM f b = .ok (l.foldl g b) := by
  induction l generalizing b with
  | nil => rfl
  | cons x xs ih =>
    rw [List.foldlM_cons, hf b x (by simp)]
    simp only [List.foldl_cons]
    exact ih _ (fun b a ha => hf b a (by simp [ha]))

theorem getD_of_lt {α : Type} (l : List α) (k : Nat) (d : α) (h : k < l.length) :
    l.get? k = some (l.getD k d) := by
  rw [List.getD_eq_getElem?_getD, List.get?_eq_getElem?]
  cases hk : l[k]? with
  | none => exact absurd (List.getElem?_eq_none_iff.mp hk) (by omega)
  | some v => rfl

theorem foldl_add_eq_sum (g : Nat → ℝ) (l : List Nat) :
    l.foldl (fun s k => s + g k) 0 = (l.map g).sum := by
  rw [List.sum_eq_foldl, List.foldl_map]

/-- The `k`-loop of `matmul` computes `dotCol` for a row that fits in `B`. -/
theorem range_map_eq_zip (r : List ℝ) (B : Mat) (j : Nat) (h : r.length ≤ B.length) :
    (List.range r.length).map (fun k => r.getD k 0 * (B.getD k []).getD j 0) =
      (r.zip B).map (fun p => p.1 * p.2.getD j 0) := by
  induction r generalizing B with
  | nil => simp
  | cons x xs ih =>
    cases B with
    | nil => simp at h
    | cons brow B2 =>
      rw [List.length_cons, List.range_succ_eq_map, List.map_cons, List.map_map]
      have h2 : ((fun k => (x :: xs).getD k 0 * ((brow :: B2).getD k []).getD j 0) ∘ Nat.succ)
          = fun k => xs.getD k 0 * (B2.getD k []).getD j 0 := by
        funext k
        simp [List.getD_cons_succ]
      rw [h2, ih B2 (by simpa using h)]
      simp

theorem mapM_congr {α β : Type} (l : List α) (f g : α → Except JsError β)
    (h : ∀ a ∈ l, f a = g a) : l.mapM f = l.mapM g := by
  induction l with
  | nil => rfl
  | cons x xs ih =>
    rw [List.mapM_cons, List.mapM_cons, h x (by simp),
      ih (fun a ha => h a (by simp [ha]))]

theorem matmul_ok (A B : Mat) (hA : A ≠ []) (hB : B ≠ [])
    (hrect : ∀ r ∈ A, r.length = (A.headD []).length)
    (hfit : (A.headD []).length ≤ B.length) :
    MathUtils.matmul A B = .ok (matmulP A B) := by
  unfold MathUtils.matmul
  rw [headLen_ok hA, headLen_ok hB]
  simp only [Except.okBind]
  have hrow : ∀ row ∈ A,
      (List.range ((B.headD []).length)).mapM (fun j =>
        (List.range ((A.headD []).length)).foldlM (fun sum k =>
          match B.get? k with
          | none => Except.error JsError.typeError
          | some bk => Except.ok (sum + row.getD k 0 * bk.getD j 0)) (0 : ℝ)) =
      Except.ok ((List.range ((B.headD []).length)).map (fun j => dotCol row B j)) := by
    intro row hrowA
    rw [← mapM_ok (List.range ((B.headD []).length)) (fun j => dotCol row B j)]
    refine mapM_congr _ _ _ (fun j _ => ?_)
    rw [foldlM_ok _ (fun s k => s + row.getD k 0 * (B.getD k []).getD j 0) 0]
    · rw [foldl_add_eq_sum, ← hrect row hrowA,
        range_map_eq_zip row B j (by rw [← hrect row hrowA] at hfit; exact hfit)]
      rfl
    · intro b k hk
      have hklt : k < B.length := by
        have := List.mem_range.mp hk
        omega
      rw [getD_of_lt B k [] hklt]
  rw [mapM_congr A _ _ hrow,
    mapM_ok A (fun row => (List.range ((B.headD []).length)).map (fun j => dotCol row B j))]
  rfl

theorem transpose_ok (A : Mat) (hA : A ≠ []) :
    MathUtils.transpose A = .ok (transposeP A) := by
  unfold MathUtils.transpose
  rw [headLen_ok hA]
  rfl

/-- Pure counterpart of `linearProjection` (with the weight present). -/
def projP (X W : Mat) (b : Option (List ℝ)) : Mat :=
  let result := matmulP X W
  match b with
  | some bv =>
    if 0 < bv.length then
      result.map (fun row => row.mapIdx (fun j x => x + bv.getD j 0))
    else result
  | none => result

theorem linearProjection_ok (X W : Mat) (b : Option (List ℝ)) (hX : X ≠ [])
    (hW : W ≠ []) (hrect : ∀ r ∈ X, r.length = (X.headD []).length)
    (hfit : (X.headD []).length ≤ W.length) :
    linearProjection X (some W) b = .ok (projP X W b) := by
  have hmm := matmul_ok X W hX hW hrect hfit
  unfold linearProjection projP
  simp only [hmm, Except.okBind]
  cases b with
  | none => rfl
  | some bv =>
    by_cases h : 0 < bv.length <;> simp [h]

/-- Pure counterpart of `scaledDotProductAttention`:
`(output, attentionWeights, scaledScores)`. -/
def attnP (headDim : Nat) (temperature : ℝ) (Q K V : Mat) : Mat × Mat × Mat :=
  let KT := transposeP K
  let scores := matmulP Q KT
  let scale := Real.sqrt (headDim : ℝ)
  let scaledScores := scores.map (fun row => row.map (fun v => v / scale))
  let attentionWeights := MathUtils.softmax scaledScores temperature
  let output := matmulP attentionWeights V
  (output, attentionWeights, scaledScores)

/-! Shape propagation through the pure pipeline. -/

theorem matmulP_shape {Ra Ca Rb Cb : Nat} {A B : Mat} (hA : MatShape Ra Ca A)
    (hB : MatShape Rb Cb B) (hRb : 0 < Rb) : MatShape Ra Cb (matmulP A B) := by
  constructor
  · simp [matmulP, hA.1]
  · intro r hr
    simp only [matmulP, List.mem_map] at hr
    obtain ⟨row, _, hrow⟩ := hr
    rw [← hrow]
    simp only [List.length_map, List.length_range]
    exact hB.headD_len hRb

theorem projP_shape {s E D : Nat} {X W : Mat} {b : Option (List ℝ)}
    (hX : MatShape s E X) (hW : MatShape E D W) (hE : 0 < E) :
    MatShape s D (projP X W b) := by
  have hm := matmulP_shape hX hW hE
  unfold projP
  cases b with
  | none => exact hm
  | some bv =>
    by_cases h : 0 < bv.length
    · simp only [h, if_true]
      constructor
      · simp [hm.1]
      · intro r hr
        simp only [List.mem_map] at hr
        obtain ⟨row, hrow, hr2⟩ := hr
        rw [← hr2]
        simp [hm.2 row hrow]
    · simpa [h] using hm

theorem transposeP_shape {R C : Nat} {M : Mat} (h : MatShape R C M) (hR : 0 < R) :
    MatShape C R (transposeP M) := by
  constructor
  · simp only [transposeP, List.length_map, List.length_range]
    exact h.headD_len hR
  · intro r hr
    simp only [transposeP, List.mem_map] at hr
    obtain ⟨j, _, hr2⟩ := hr
    rw [← hr2]
    simp [h.1]

theorem softmax_shape {R C : Nat} {S : Mat} (t : ℝ) (h : MatShape R C S) :
    MatShape R C (MathUtils.softmax S t) := by
  constructor
  · simp [MathUtils.softmax, h.1]
  · intro r hr
    simp only [MathUtils.softmax, List.mem_map] at hr
    obtain ⟨row, hrow, hr2⟩ := hr
    rw [← hr2]
    simp [h.2 row hrow]

theorem map_div_shape {R C : Nat} {S : Mat} (c : ℝ) (h : MatShape R C S) :
    MatShape R C (S.map (fun row => row.map (fun v => v / c))) := by
  constructor
  · simp [h.1]
  · intro r hr
    simp only [List.mem_map] at hr
    obtain ⟨row, hrow, hr2⟩ := hr
    rw [← hr2]
    simp [h.2 row hrow]

theorem attnP_shapes {s D : Nat} {Q K V : Mat} (headDim : Nat) (temperature : ℝ)
    (hs : 0 < s) (hD : 0 < D) (hQ : MatShape s D Q) (hK : MatShape s D K)
    (hV : MatShape s D V) :
    MatShape s D (attnP headDim temperature Q K V).1 ∧
    MatShape s s (attnP headDim temperature Q K V).2.1 ∧
    MatShape s s (attnP headDim temperature Q K V).2.2 := by
  have hKT : MatShape D s (transposeP K) := transposeP_shape hK hs
  have hscores : MatShape s s (matmulP Q (transposeP K)) := matmulP_shape hQ hKT hD
  have hscaled := map_div_shape (Real.sqrt (headDim : ℝ)) hscores
  have hatt := softmax_shape temperature hscaled
  exact ⟨matmulP_shape hatt hV hs, hatt, hscaled⟩

theorem scaledDotProductAttention_ok {s D : Nat} (headDim : Nat) (temperature : ℝ)
    (Q K V : Mat) (hs : 0 < s) (hD : 0 < D) (hQ : MatShape s D Q)
    (hK : MatShape s D K) (hV : MatShape s D V) :
    scaledDotProductAttention headDim temperature Q K V =
      .ok (attnP headDim temperature Q K V) := by
  have hKT : MatShape D s (transposeP K) := transposeP_shape hK hs
  have hscores : MatShape s s (matmulP Q (transposeP K)) := matmulP_shape hQ hKT hD
  have hscaled := map_div_shape (Real.sqrt (headDim : ℝ)) hscores
  have hatt := softmax_shape temperature hscaled
  unfold scaledDotProductAttention attnP
  rw [transpose_ok K (hK.ne_nil hs)]
  simp only [Except.okBind]
  rw [matmul_ok Q (transposeP K) (hQ.ne_nil hs) (hKT.ne_nil hD)
    (fun r hr => by rw [hQ.2 r hr, hQ.headD_len hs])
    (by rw [hQ.headD_len hs, hKT.1])]
  simp only [Except.okBind]
  rw [matmul_ok _ V (hatt.ne_nil hs) (hV.ne_nil hs)
    (fun r hr => by rw [hatt.2 r hr, hatt.headD_len hs])
    (by rw [hatt.headD_len hs, hV.1])]
  rfl

/-- Pure per-head trace: what one iteration of `forward`'s head loop
records for a well-formed head. -/
def headTraceP (headDim : Nat) (temperature : ℝ) (emb : Mat) (hd : Head) : HeadOut :=
  { Q := projP emb (hd.Wq.getD []) hd.bq
    K := projP emb (hd.Wk.getD []) hd.bk
    V := projP emb (hd.Wv.getD []) hd.bv
    output := (attnP headDim temperature (projP emb (hd.Wq.getD []) hd.bq)
      (projP emb (hd.Wk.getD []) hd.bk) (projP emb (hd.Wv.getD []) hd.bv)).1
    attentionWeights := (attnP headDim temperature (projP emb (hd.Wq.getD []) hd.bq)
      (projP emb (hd.Wk.getD []) hd.bk) (projP emb (hd.Wv.getD []) hd.bv)).2.1
    scores := (attnP headDim temperature (projP emb (hd.Wq.getD []) hd.bq)
      (projP emb (hd.Wk.getD []) hd.bk) (projP emb (hd.Wv.getD []) hd.bv)).2.2
    Wq := hd.Wq
    Wk := hd.Wk
    Wv := hd.Wv
    Wo := hd.Wo }

/-- The per-head projected contributions pushed by one loop iteration:
one entry when the head has a `Wo`, none otherwise. -/
def headProjListP (headDim : Nat) (temperature : ℝ) (emb : Mat) (hd : Head) : List Mat :=
  match hd.Wo with
  | some W => [matmulP (headTraceP headDim temperature emb hd).output W]
  | none => []

theorem headTraceP_shapes {E D : Nat} (headDim : Nat) (temperature : ℝ)
    (emb : Mat) (hd : Head) (hWF : WFhead E D hd)
    (hemb : MatShape emb.length E emb) (hs : 0 < emb.length)
    (hE : 0 < E) (hD : 0 < D) :
    MatShape emb.length D (headTraceP headDim temperature emb hd).output ∧
    MatShape emb.length emb.length
      (headTraceP headDim temperature emb hd).attentionWeights := by
  obtain ⟨⟨Wq, hWq, hWqs⟩, ⟨Wk, hWk, hWks⟩, ⟨Wv, hWv, hWvs⟩, _, _, _, _⟩ := hWF
  have hQ := projP_shape (b := hd.bq) hemb hWqs hE
  have hK := projP_shape (b := hd.bk) hemb hWks hE
  have hV := projP_shape (b := hd.bv) hemb hWvs hE
  have ha := attnP_shapes headDim temperature hs hD hQ hK hV
  simp only [headTraceP, hWq, hWk, hWv, Option.getD_some]
  exact ⟨ha.1, ha.2.1⟩

theorem forwardStep_ok (e : Engine) (emb : Mat)
    (acc : List HeadOut × List Mat × List Mat) (h : Nat) (hd : Head)
    (hget : e.heads.get? h = some hd) (hWF : WFhead e.embedDim e.headDim hd)
    (hemb : MatShape emb.length e.embedDim emb) (hs : 0 < emb.length)
    (hE : 0 < e.embedDim) (hD : 0 < e.headDim) :
    forwardStep e emb acc h = .ok
      (acc.1 ++ [headTraceP e.headDim e.temperature emb hd],
       acc.2.1 ++ [(headTraceP e.headDim e.temperature emb hd).attentionWeights],
       acc.2.2 ++ headProjListP e.headDim e.temperature emb hd) := by
  obtain ⟨⟨Wq, hWq, hWqs⟩, ⟨Wk, hWk, hWks⟩, ⟨Wv, hWv, hWvs⟩, hWo, _, _, _⟩ := hWF
  have hembne : emb ≠ [] := hemb.ne_nil hs
  have hrect : ∀ r ∈ emb, r.length = (emb.headD []).length := fun r hr => by
    rw [hemb.2 r hr, hemb.headD_len hs]
  have hQ := projP_shape (b := hd.bq) hemb hWqs hE
  have hK := projP_shape (b := hd.bk) hemb hWks hE
  have hV := projP_shape (b := hd.bv) hemb hWvs hE
  have hout := (attnP_shapes e.headDim e.temperature hs hD hQ hK hV).1
  unfold forwardStep
  rw [hget]
  simp only [hWq, hWk, hWv,
    linearProjection_ok emb Wq hd.bq hembne (hWqs.ne_nil hE) hrect
      (by rw [hemb.headD_len hs, hWqs.1]),
    linearProjection_ok emb Wk hd.bk hembne (hWks.ne_nil hE) hrect
      (by rw [hemb.headD_len hs, hWks.1]),
    linearProjection_ok emb Wv hd.bv hembne (hWvs.ne_nil hE) hrect
      (by rw [hemb.headD_len hs, hWvs.1]),
    Except.okBind,
    scaledDotProductAttention_ok e.headDim e.temperature _ _ _ hs hD hQ hK hV]
  rcases hWo with hWo | ⟨W, hWo, hWos⟩
  · simp only [hWo, headTraceP, headProjListP, hWq, hWk, hWv, Option.getD_some,
      List.append_nil]
  · simp only [hWo,
      matmul_ok _ W (hout.ne_nil hs) (hWos.ne_nil hD)
        (fun r hr => by rw [hout.2 r hr, hout.headD_len hs])
        (by rw [hout.headD_len hs, hWos.1]),
      Except.okBind, headTraceP, headProjListP, hWq, hWk, hWv, Option.getD_some]

/-- The head loop of `forward`, run from index `k` over a window `hs2` of
the stored heads, accumulates the pure traces, attentions and projected
contributions. -/
theorem forward_loop_ok (e : Engine) (emb : Mat)
    (hemb : MatShape emb.length e.embedDim emb) (hs : 0 < emb.length)
    (hE : 0 < e.embedDim) (hD : 0 < e.headDim) :
    ∀ (hs2 : List Head) (k : Nat) (acc : List HeadOut × List Mat × List Mat),
      (∀ i, i < hs2.length → e.heads.get? (k + i) = hs2.get? i) →
      (∀ hd ∈ hs2, WFhead e.embedDim e.headDim hd) →
      (List.range' k hs2.length).foldlM (forwardStep e emb) acc = .ok
        (acc.1 ++ hs2.map (headTraceP e.headDim e.temperature emb),
         acc.2.1 ++ hs2.map
           (fun hd => (headTraceP e.headDim e.temperature emb hd).attentionWeights),
         acc.2.2 ++ hs2.flatMap (headProjListP e.headDim e.temperature emb)) := by
  intro hs2
  induction hs2 with
  | nil =>
    intro k acc _ _
    simp only [List.length_nil, List.range', List.foldlM_nil, List.map_nil,
      List.flatMap_nil, List.append_nil]
    rfl
  | cons hd tl ih =>
    intro k acc hget hWF
    have hget0 : e.heads.get? k = some hd := by simpa using hget 0 (by simp)
    rw [List.length_cons, List.range'_succ, List.foldlM_cons,
      forwardStep_ok e emb acc k hd hget0 (hWF hd (by simp)) hemb hs hE hD]
    rw [show ∀ (x : List HeadOut × List Mat × List Mat)
        (f : List HeadOut × List Mat × List Mat →
          Except JsError (List HeadOut × List Mat × List Mat)),
        (Except.ok x : Except JsError (List HeadOut × List Mat × List Mat)) >>= f = f x
      from fun x f => rfl]
    rw [ih (k + 1) _
      (fun i hi => by
        have h2 := hget (i + 1) (by simpa using Nat.succ_lt_succ hi)
        rw [show k + (i + 1) = k + 1 + i by omega] at h2
        simpa using h2)
      (fun hd2 h2 => hWF hd2 (by simp [h2]))]
    simp [List.append_assoc]

/-! ## Merging machinery: pure forms of the merge loops -/

/-- Elementwise matrix sum (pure form of the `+=` loops). -/
def matAddP (A B : Mat) : Mat :=
  List.zipWith (fun r1 r2 => List.zipWith (fun a b => a + b) r1 r2) A B

/-- Elementwise sum of a list of equally-shaped matrices, seeded with the
first one — mirrors "copy projection 0, then accumulate the rest". -/
def sumMatrices : List Mat → Mat
  | [] => []
  | M :: Ms => Ms.foldl matAddP M

/-- Spec-side "add the combined bias `bo` (when present) to every row". -/
def addBoRows (X : Mat) (bo : Option (List ℝ)) : Mat :=
  match bo with
  | some b => X.map (fun row => List.zipWith (fun a c => a + c) row b)
  | none => X

/-- Spec-side horizontal concatenation of `s`-row matrices. -/
def hcatP (ms : List Mat) (s : Nat) : Mat :=
  match ms with
  | [] => List.replicate s []
  | M :: Ms => List.zipWith (fun r1 r2 => r1 ++ r2) M (hcatP Ms s)

theorem mapIdx_add_eq_zipWith (d : Nat) :
    ∀ (row m : List ℝ), row.length = d → m.length = d →
      row.mapIdx (fun j x => if j < d then x + m.getD j 0 else x) =
        List.zipWith (fun a b => a + b) row m := by
  intro row
  induction row generalizing d with
  | nil =>
    intro m h1 h2
    simp
  | cons x xs ih =>
    intro m h1 h2
    cases m with
    | nil => simp at h1 h2; omega
    | cons y ys =>
      rw [List.mapIdx_cons, List.zipWith_cons_cons]
      have hd : 0 < d := by simp at h1; omega
      have hhead : (if 0 < d then x + (y :: ys).getD 0 0 else x) = x + y := by
        simp [hd]
      rw [show (fun (j : Nat) (x : ℝ) =>
          if j + 1 < d then x + (y :: ys).getD (j + 1) 0 else x) =
          (fun (j : Nat) (x : ℝ) =>
          if j < d - 1 then x + ys.getD j 0 else x) from
        funext fun j => funext fun x => by
          rw [List.getD_cons_succ]
          congr 1
          simp only [eq_iff_iff]
          omega]
      rw [hhead, ih (d - 1) ys (by simp at h1; omega) (by simp at h2; omega)]

theorem addIntoRange_eq_matAdd (d : Nat) :
    ∀ (acc M : Mat), (∀ r ∈ acc, r.length = d) → (∀ r ∈ M, r.length = d) →
      M.length = acc.length →
      addIntoRange acc M acc.length d = matAddP acc M := by
  intro acc
  induction acc with
  | nil =>
    intro M _ _ hlen
    have hM : M = [] := List.length_eq_zero.mp (by simpa using hlen)
    subst hM
    rfl
  | cons r acc2 ih =>
    intro M hacc hM hlen
    cases M with
    | nil => simp at hlen
    | cons m M2 =>
      unfold addIntoRange matAddP
      rw [List.mapIdx_cons]
      have h0 : (if 0 < (r :: acc2).length then
          r.mapIdx (fun j x => if j < d then x + jsEntry (m :: M2) 0 j else x)
          else r) = List.zipWith (fun a b => a + b) r m := by
        rw [if_pos (by simp)]
        rw [show (fun (j : Nat) (x : ℝ) => if j < d then x + jsEntry (m :: M2) 0 j else x)
            = (fun (j : Nat) (x : ℝ) => if j < d then x + m.getD j 0 else x) from
          funext fun j => funext fun x => by simp [jsEntry]]
        exact mapIdx_add_eq_zipWith d r m (hacc r (by simp)) (hM m (by simp))
      rw [h0]
      rw [show (fun (i : Nat) (row : List ℝ) => if i + 1 < (r :: acc2).length then
          row.mapIdx (fun j x => if j < d then x + jsEntry (m :: M2) (i + 1) j else x)
          else row)
          = (fun (i : Nat) (row : List ℝ) => if i < acc2.length then
          row.mapIdx (fun j x => if j < d then x + jsEntry M2 i j else x)
          else row) from
        funext fun i => funext fun row => by
          simp only [jsEntry, List.getD_cons_succ, List.length_cons]
          congr 1
          simp only [eq_iff_iff]
          omega]
      have := ih M2 (fun r2 h2 => hacc r2 (by simp [h2]))
        (fun r2 h2 => hM r2 (by simp [h2])) (by simpa using hlen)
      unfold addIntoRange at this
      rw [this]
      simp [matAddP]

theorem addBiasRange_eq (d : Nat) (b : List ℝ) (hb : b.length = d) :
    ∀ (acc : Mat), (∀ r ∈ acc, r.length = d) →
      addBiasRange acc b acc.length d =
        acc.map (fun row => List.zipWith (fun a c => a + c) row b) := by
  intro acc
  induction acc with
  | nil => intro _; rfl
  | cons r acc2 ih =>
    intro hacc
    unfold addBiasRange
    rw [List.mapIdx_cons, if_pos (by simp),
      mapIdx_add_eq_zipWith d r b (hacc r (by simp)) hb]
    rw [show (fun (i : Nat) (row : List ℝ) => if i + 1 < (r :: acc2).length then
        row.mapIdx (fun j x => if j < d then x + b.getD j 0 else x) else row)
        = (fun (i : Nat) (row : List ℝ) => if i < acc2.length then
        row.mapIdx (fun j x => if j < d then x + b.getD j 0 else x) else row) from
      funext fun i => funext fun row => by
        simp only [List.length_cons]
        congr 1
        simp only [eq_iff_iff]
        omega]
    have := ih (fun r2 h2 => hacc r2 (by simp [h2]))
    unfold addBiasRange at this
    rw [this, List.map_cons]

theorem zipWith_rows_len {α : Type} (d1 d2 : Nat) :
    ∀ (A B : List (List α)), (∀ r ∈ A, r.length = d1) → (∀ r ∈ B, r.length = d2) →
      ∀ r ∈ List.zipWith (fun r1 r2 => r1 ++ r2) A B, r.length = d1 + d2 := by
  intro A
  induction A with
  | nil => simp
  | cons a A2 ih =>
    intro B hA hB r hr
    cases B with
    | nil => simp at hr
    | cons b B2 =>
      rw [List.zipWith_cons_cons] at hr
      rcases List.mem_cons.mp hr with h1 | h1
      · rw [h1, List.length_append, hA a (by simp), hB b (by simp)]
      · exact ih B2 (fun r2 h2 => hA r2 (by simp [h2]))
          (fun r2 h2 => hB r2 (by simp [h2])) r h1

theorem matAddP_shape {s d : Nat} : ∀ {A B : Mat}, MatShape s d A →
    MatShape s d B → MatShape s d (matAddP A B) := by
  have rows : ∀ (A B : Mat), (∀ r ∈ A, r.length = d) → (∀ r ∈ B, r.length = d) →
      ∀ r ∈ matAddP A B, r.length = d := by
    intro A
    induction A with
    | nil => simp [matAddP]
    | cons a A2 ih =>
      intro B hA hB r hr
      cases B with
      | nil => simp [matAddP] at hr
      | cons b B2 =>
        simp only [matAddP, List.zipWith_cons_cons] at hr
        rcases List.mem_cons.mp hr with h1 | h1
        · rw [h1, List.length_zipWith, hA a (by simp), hB b (by simp)]
          exact Nat.min_self d
        · exact ih B2 (fun r2 h2 => hA r2 (by simp [h2]))
            (fun r2 h2 => hB r2 (by simp [h2])) r h1
  intro A B hA hB
  exact ⟨by simp [matAddP, List.length_zipWith, hA.1, hB.1],
    rows A B hA.2 hB.2⟩

theorem foldl_matAddP_shape {s d : Nat} :
    ∀ (cs : List Mat) (c : Mat), MatShape s d c → (∀ M ∈ cs, MatShape s d M) →
      MatShape s d (cs.foldl matAddP c) := by
  intro cs
  induction cs with
  | nil => intro c hc _; exact hc
  | cons m cs2 ih =>
    intro c hc hcs
    rw [List.foldl_cons]
    exact ih _ (matAddP_shape hc (hcs m (by simp)))
      (fun M hM => hcs M (by simp [hM]))

theorem foldl_addIntoRange_eq {s d : Nat} :
    ∀ (cs : List Mat) (c : Mat), MatShape s d c → (∀ M ∈ cs, MatShape s d M) →
      cs.foldl (fun a m => addIntoRange a m s d) c = cs.foldl matAddP c := by
  intro cs
  induction cs with
  | nil => intro c _ _; rfl
  | cons m cs2 ih =>
    intro c hc hcs
    rw [List.foldl_cons, List.foldl_cons]
    have hm := hcs m (by simp)
    have h1 : addIntoRange c m s d = matAddP c m := by
      have := addIntoRange_eq_matAdd d c m hc.2 hm.2 (by rw [hc.1, hm.1])
      rw [hc.1] at this
      exact this
    rw [h1]
    exact ih _ (matAddP_shape hc hm) (fun M hM => hcs M (by simp [hM]))

theorem foldl_range_getD {α : Type} (g : α → Mat → α) :
    ∀ (cs : List Mat) (L : List Mat) (k : Nat) (x : α),
      (∀ i, i < cs.length → L.getD (k + i) [] = cs.getD i []) →
      (List.range' k cs.length).foldl (fun a h => g a (L.getD h [])) x =
        cs.foldl g x := by
  intro cs
  induction cs with
  | nil => intro L k x _; rfl
  | cons c cs2 ih =>
    intro L k x hLk
    rw [List.length_cons, List.range'_succ, List.foldl_cons, List.foldl_cons]
    have h0 : L.getD k [] = c := by simpa using hLk 0 (by simp)
    rw [h0]
    exact ih L (k + 1) (g x c) (fun i hi => by
      have h2 := hLk (i + 1) (by simpa using Nat.succ_lt_succ hi)
      rw [show k + (i + 1) = k + 1 + i by omega] at h2
      simpa using h2)

theorem range_getD_map {α : Type} (l : List α) (d : α) :
    (List.range l.length).map (fun i => l.getD i d) = l := by
  induction l with
  | nil => simp
  | cons x xs ih =>
    rw [List.length_cons, List.range_succ_eq_map, List.map_cons, List.map_map]
    simp only [List.getD_cons_zero, List.cons.injEq, true_and]
    rw [show ((fun i => (x :: xs).getD i d) ∘ Nat.succ) = fun i => xs.getD i d from
      funext fun i => by simp [List.getD_cons_succ], ih]

theorem zipWith_map_same {α β γ δ : Type} (g : β → γ → δ) (f1 : α → β)
    (f2 : α → γ) (l : List α) :
    List.zipWith g (l.map f1) (l.map f2) = l.map (fun i => g (f1 i) (f2 i)) := by
  induction l with
  | nil => rfl
  | cons x xs ih => simp [ih]

theorem concatRows_eq_hcatP (s : Nat) :
    ∀ (traces : List HeadOut), (∀ ho ∈ traces, ho.output.length = s) →
      concatRows traces s = hcatP (traces.map (fun ho => ho.output)) s := by
  intro traces
  induction traces with
  | nil =>
    intro _
    simp only [concatRows, List.map_nil, List.flatten_nil, hcatP]
    rw [show (fun (i : Nat) => ([] : List ℝ)) = Function.const Nat [] from rfl,
      List.map_const, List.length_range]
  | cons ho rest ih =>
    intro hlen
    have h1 : concatRows (ho :: rest) s =
        List.zipWith (fun r1 r2 => r1 ++ r2)
          ((List.range s).map (fun i => ho.output.getD i []))
          (concatRows rest s) := by
      unfold concatRows
      rw [zipWith_map_same]
      simp
    rw [h1, ih (fun h2 hh => hlen h2 (by simp [hh]))]
    have h2 : (List.range s).map (fun i => ho.output.getD i []) = ho.output := by
      rw [← hlen ho (by simp), range_getD_map]
    rw [h2]
    simp [hcatP]

/-! ## The two merge paths of `forward` -/

/-- The per-head traces recorded by a full `forward` head loop. -/
def tracesOf (e : Engine) (emb : Mat) : List HeadOut :=
  e.heads.map (headTraceP e.headDim e.temperature emb)

/-- The per-head projected contributions `headOutput · headWo`, one per
head (meaningful when every head carries a `Wo`). -/
def contribsOf (e : Engine) (emb : Mat) : List Mat :=
  e.heads.map (fun hd =>
    matmulP (headTraceP e.headDim e.temperature emb hd).output (hd.Wo.getD []))

/-- The horizontal concatenation of all head outputs. -/
def concatOf (e : Engine) (emb : Mat) : Mat :=
  hcatP (e.heads.map (fun hd => (headTraceP e.headDim e.temperature emb hd).output))
    emb.length

theorem flatMap_proj_all_some (headDim : Nat) (temperature : ℝ) (emb : Mat) :
    ∀ (hs : List Head), (∀ hd ∈ hs, hd.Wo.isSome) →
      hs.flatMap (headProjListP headDim temperature emb) =
        hs.map (fun hd =>
          matmulP (headTraceP headDim temperature emb hd).output (hd.Wo.getD [])) := by
  intro hs
  induction hs with
  | nil => intro _; rfl
  | cons hd tl ih =>
    intro hall
    obtain ⟨W, hW⟩ := Option.isSome_iff_exists.mp (hall hd (by simp))
    rw [List.flatMap_cons, List.map_cons, ih (fun h2 hh => hall h2 (by simp [hh]))]
    simp [headProjListP, hW]

theorem flatMap_proj_length_le (headDim : Nat) (temperature : ℝ) (emb : Mat) :
    ∀ (hs : List Head),
      (hs.flatMap (headProjListP headDim temperature emb)).length ≤ hs.length := by
  intro hs
  induction hs with
  | nil => simp
  | cons hd tl ih =>
    rw [List.flatMap_cons, List.length_append, List.length_cons]
    have h1 : (headProjListP headDim temperature emb hd).length ≤ 1 := by
      unfold headProjListP
      cases hd.Wo <;> simp
    omega

theorem flatMap_proj_length_lt (headDim : Nat) (temperature : ℝ) (emb : Mat) :
    ∀ (hs : List Head) (hd0 : Head), hd0 ∈ hs → hd0.Wo = none →
      (hs.flatMap (headProjListP headDim temperature emb)).length < hs.length := by
  intro hs
  induction hs with
  | nil => intro hd0 h; simp at h
  | cons hd tl ih =>
    intro hd0 hmem hnone
    rw [List.flatMap_cons, List.length_append, List.length_cons]
    have hle := flatMap_proj_length_le headDim temperature emb tl
    rcases List.mem_cons.mp hmem with h1 | h1
    · have h2 : (headProjListP headDim temperature emb hd).length = 0 := by
        unfold headProjListP
        rw [← h1, hnone]
        rfl
      omega
    · have h2 : (headProjListP headDim temperature emb hd).length ≤ 1 := by
        unfold headProjListP
        cases hd.Wo <;> simp
      have h3 := ih hd0 h1 hnone
      omega

theorem contribs_shape (e : Engine) (emb : Mat)
    (hheads : ∀ hd ∈ e.heads, WFhead e.embedDim e.headDim hd)
    (hall : ∀ hd ∈ e.heads, hd.Wo.isSome)
    (hemb : MatShape emb.length e.embedDim emb) (hs : 0 < emb.length)
    (hE : 0 < e.embedDim) (hD : 0 < e.headDim) :
    ∀ M ∈ contribsOf e emb, MatShape emb.length e.embedDim M := by
  intro M hM
  simp only [contribsOf, List.mem_map] at hM
  obtain ⟨hd, hhd, hMeq⟩ := hM
  obtain ⟨W, hW⟩ := Option.isSome_iff_exists.mp (hall hd hhd)
  have hWs : MatShape e.headDim e.embedDim W := by
    rcases (hheads hd hhd).2.2.2.1 with h1 | ⟨W2, hW2, hW2s⟩
    · rw [h1] at hW; cases hW
    · rw [hW2] at hW
      injection hW with hW3
      rw [← hW3]
      exact hW2s
  have hout := (headTraceP_shapes e.headDim e.temperature emb hd (hheads hd hhd)
    hemb hs hE hD).1
  rw [← hMeq, hW, Option.getD_some]
  exact matmulP_shape hout hWs hD

theorem traces_output_len (e : Engine) (emb : Mat)
    (hheads : ∀ hd ∈ e.heads, WFhead e.embedDim e.headDim hd)
    (hemb : MatShape emb.length e.embedDim emb) (hs : 0 < emb.length)
    (hE : 0 < e.embedDim) (hD : 0 < e.headDim) :
    ∀ ho ∈ tracesOf e emb, ho.output.length = emb.length := by
  intro ho hho
  simp only [tracesOf, List.mem_map] at hho
  obtain ⟨hd, hhd, hhoeq⟩ := hho
  rw [← hhoeq]
  exact (headTraceP_shapes e.headDim e.temperature emb hd (hheads hd hhd)
    hemb hs hE hD).1.1

/-- `forward` on a well-formed engine all of whose heads carry a per-head
`Wo` takes the project-then-sum path: the output is the elementwise sum of
the per-head contributions `headOutput · headWo`, with `bo` (when present)
added to every row; the concatenation is still recorded, and the
per-head projections are returned. -/
theorem forward_perHead_ok (e : Engine) (emb : Mat) (hWF : WFengine e)
    (hemb : WFemb e emb) (hall : ∀ hd ∈ e.heads, hd.Wo.isSome) :
    forward e emb = .ok
      { output := addBoRows (sumMatrices (contribsOf e emb)) e.bo
        headOutputs := tracesOf e emb
        headAttentions := e.heads.map (fun hd =>
          (headTraceP e.headDim e.temperature emb hd).attentionWeights)
        concatenated := concatOf e emb
        headProjectedOutputs := some (contribsOf e emb) } := by
  obtain ⟨hnH, hDpos, hEpos, hlen, hheads, hbo⟩ := hWF
  obtain ⟨hembne, hembrect⟩ := hemb
  have hembshape : MatShape emb.length e.embedDim emb := ⟨rfl, hembrect⟩
  have hslen : 0 < emb.length := List.length_pos.mpr hembne
  have hloop := forward_loop_ok e emb hembshape hslen hEpos hDpos e.heads 0
    ([], [], []) (fun i hi => by simp) hheads
  simp only [List.nil_append] at hloop
  have hflat := flatMap_proj_all_some e.headDim e.temperature emb e.heads hall
  have hclen : (contribsOf e emb).length = e.numHeads := by
    rw [contribsOf, List.length_map, hlen]
  have hcsh := contribs_shape e emb hheads hall hembshape hslen hEpos hDpos
  obtain ⟨c, cs, hcc⟩ : ∃ c cs, contribsOf e emb = c :: cs := by
    cases hni : contribsOf e emb with
    | nil => rw [hni] at hclen; simp at hclen; omega
    | cons c cs => exact ⟨c, cs, rfl⟩
  unfold forward
  rw [show List.range e.numHeads = List.range' 0 e.heads.length from by
    rw [hlen, List.range_eq_range']]
  rw [hloop]
  rw [show ∀ (x : List HeadOut × List Mat × List Mat)
      (f : List HeadOut × List Mat × List Mat → Except JsError ForwardOut),
      (Except.ok x : Except JsError (List HeadOut × List Mat × List Mat)) >>= f = f x
    from fun x f => rfl]
  simp only
  rw [show e.heads.flatMap (headProjListP e.headDim e.temperature emb)
      = contribsOf e emb from hflat]
  rw [if_pos (by rw [hclen])]
  rw [hcc]
  simp only [List.head?_cons]
  have hfold : (List.range' 1 (e.numHeads - 1)).foldl
      (fun acc h => addIntoRange acc ((c :: cs).getD h []) emb.length e.embedDim) c
      = sumMatrices (c :: cs) := by
    have hcs : cs.length = e.numHeads - 1 := by
      rw [hcc] at hclen
      simp at hclen
      omega
    rw [show e.numHeads - 1 = cs.length from hcs.symm]
    rw [foldl_range_getD (fun a m => addIntoRange a m emb.length e.embedDim) cs
      (c :: cs) 1 c (fun i hi => by rw [Nat.add_comm 1 i, List.getD_cons_succ])]
    rw [foldl_addIntoRange_eq cs c (hcsh c (by rw [hcc]; simp))
      (fun M hM => hcsh M (by rw [hcc]; simp [hM]))]
    rfl
  rw [hfold, ← hcc]
  have hsumsh : MatShape emb.length e.embedDim (sumMatrices (contribsOf e emb)) := by
    rw [hcc]
    exact foldl_matAddP_shape cs c (hcsh c (by rw [hcc]; simp))
      (fun M hM => hcsh M (by rw [hcc]; simp [hM]))
  have hconcat : concatRows (List.map (headTraceP e.headDim e.temperature emb) e.heads)
      emb.length = concatOf e emb := by
    rw [show List.map (headTraceP e.headDim e.temperature emb) e.heads
        = tracesOf e emb from rfl]
    rw [concatRows_eq_hcatP emb.length (tracesOf e emb)
      (traces_output_len e emb hheads hembshape hslen hEpos hDpos)]
    unfold concatOf tracesOf
    rw [List.map_map]
    rfl
  have hpos : 0 < (contribsOf e emb).length := by omega
  rw [if_pos hpos, hconcat]
  split
  next b heq =>
    rcases hbo with h | ⟨b2, hbo2, hblen⟩
    · rw [h] at heq; cases heq
    · rw [hbo2] at heq
      injection heq with h2
      subst h2
      have h1 : 0 < b2.length := by rw [hblen]; exact hEpos
      have hab := addBiasRange_eq e.embedDim b2 hblen
        (sumMatrices (contribsOf e emb)) hsumsh.2
      rw [hsumsh.1] at hab
      rw [if_pos h1, hab, hbo2]
      simp only [addBoRows]
      rfl
  next heq =>
    rw [heq]
    simp only [addBoRows]
    rfl

theorem hcatP_shape {s D : Nat} : ∀ (ms : List Mat), (∀ M ∈ ms, MatShape s D M) →
    MatShape s (ms.length * D) (hcatP ms s) := by
  intro ms
  induction ms with
  | nil =>
    intro _
    constructor
    · simp [hcatP]
    · intro r hr
      simp only [hcatP] at hr
      rw [List.eq_of_mem_replicate hr]
      simp
  | cons M ms2 ih =>
    intro h
    have hM := h M (by simp)
    have hrest := ih (fun M2 h2 => h M2 (by simp [h2]))
    constructor
    · unfold hcatP
      rw [List.length_zipWith, hM.1, hrest.1]
      exact Nat.min_self s
    · intro r hr
      unfold hcatP at hr
      have hlen := zipWith_rows_len D (ms2.length * D) M (hcatP ms2 s)
        hM.2 hrest.2 r hr
      rw [hlen, List.length_cons, Nat.succ_mul]
      omega

/-- `forward` on a well-formed engine with at least one head lacking a
per-head `Wo` (and a combined `Wo` present) takes the
concatenate-then-project path. -/
theorem forward_concat_ok (e : Engine) (emb : Mat) (hWF : WFengine e)
    (hemb : WFemb e emb) (hd0 : Head) (hmem : hd0 ∈ e.heads)
    (hnone : hd0.Wo = none) (W : Mat) (hWo : e.Wo = some W)
    (hWs : MatShape (e.numHeads * e.headDim) e.embedDim W) :
    forward e emb = .ok
      { output := matmulP (concatOf e emb) W
        headOutputs := tracesOf e emb
        headAttentions := e.heads.map (fun hd =>
          (headTraceP e.headDim e.temperature emb hd).attentionWeights)
        concatenated := concatOf e emb
        headProjectedOutputs :=
          if 0 < (e.heads.flatMap (headProjListP e.headDim e.temperature emb)).length
          then some (e.heads.flatMap (headProjListP e.headDim e.temperature emb))
          else none } := by
  obtain ⟨hnH, hDpos, hEpos, hlen, hheads, hbo⟩ := hWF
  obtain ⟨hembne, hembrect⟩ := hemb
  have hembshape : MatShape emb.length e.embedDim emb := ⟨rfl, hembrect⟩
  have hslen : 0 < emb.length := List.length_pos.mpr hembne
  have hloop := forward_loop_ok e emb hembshape hslen hEpos hDpos e.heads 0
    ([], [], []) (fun i hi => by simp) hheads
  simp only [List.nil_append] at hloop
  have hlt := flatMap_proj_length_lt e.headDim e.temperature emb e.heads hd0
    hmem hnone
  have hne : (e.heads.flatMap (headProjListP e.headDim e.temperature emb)).length
      ≠ e.numHeads := by omega
  have hconcat : concatRows (List.map (headTraceP e.headDim e.temperature emb) e.heads)
      emb.length = concatOf e emb := by
    rw [show List.map (headTraceP e.headDim e.temperature emb) e.heads
        = tracesOf e emb from rfl]
    rw [concatRows_eq_hcatP emb.length (tracesOf e emb)
      (traces_output_len e emb hheads hembshape hslen hEpos hDpos)]
    unfold concatOf tracesOf
    rw [List.map_map]
    rfl
  have hcsh : MatShape emb.length (e.numHeads * e.headDim) (concatOf e emb) := by
    have h1 : ∀ M ∈ e.heads.map (fun hd =>
        (headTraceP e.headDim e.temperature emb hd).output),
        MatShape emb.length e.headDim M := by
      intro M hM
      simp only [List.mem_map] at hM
      obtain ⟨hd, hhd, hMeq⟩ := hM
      rw [← hMeq]
      exact (headTraceP_shapes e.headDim e.temperature emb hd (hheads hd hhd)
        hembshape hslen hEpos hDpos).1
    have h2 := hcatP_shape (e.heads.map (fun hd =>
      (headTraceP e.headDim e.temperature emb hd).output)) h1
    rw [List.length_map, hlen] at h2
    exact h2
  have hWne : W ≠ [] := hWs.ne_nil (Nat.mul_pos hnH hDpos)
  have hmm := matmul_ok (concatOf e emb) W (hcsh.ne_nil hslen) hWne
    (fun r hr => by rw [hcsh.2 r hr, hcsh.headD_len hslen])
    (by rw [hcsh.headD_len hslen, hWs.1])
  unfold forward
  rw [show List.range e.numHeads = List.range' 0 e.heads.length from by
    rw [hlen, List.range_eq_range']]
  rw [hloop]
  rw [show ∀ (x : List HeadOut × List Mat × List Mat)
      (f : List HeadOut × List Mat × List Mat → Except JsError ForwardOut),
      (Except.ok x : Except JsError (List HeadOut × List Mat × List Mat)) >>= f = f x
    from fun x f => rfl]
  simp only
  rw [if_neg hne, hconcat]
  split
  next heq => rw [hWo] at heq; cases heq
  next W2 heq =>
    rw [hWo] at heq
    injection heq with h2
    subst h2
    rw [hmm]
    rfl

theorem addBoRows_shape {s d : Nat} {X : Mat} (hX : MatShape s d X)
    {bo : Option (List ℝ)}
    (hbo : bo = none ∨ ∃ b, bo = some b ∧ b.length = d) :
    MatShape s d (addBoRows X bo) := by
  rcases hbo with h | ⟨b, h, hblen⟩ <;> rw [h]
  · exact hX
  · constructor
    · simp [addBoRows, hX.1]
    · intro r hr
      simp only [addBoRows, List.mem_map] at hr
      obtain ⟨row, hrow, hr2⟩ := hr
      rw [← hr2, List.length_zipWith, hX.2 row hrow, hblen]
      exact Nat.min_self d

theorem sumMatrices_shape {s d : Nat} (cs : List Mat) (hne : cs ≠ [])
    (h : ∀ M ∈ cs, MatShape s d M) : MatShape s d (sumMatrices cs) := by
  cases cs with
  | nil => exact absurd rfl hne
  | cons c cs2 =>
    exact foldl_matAddP_shape cs2 c (h c (by simp))
      (fun M hM => h M (by simp [hM]))

/-! ## Claim C1: structural merge-strategy selection -/

/-- C1: for every well-formed initialized engine (with a well-shaped
combined `Wo` available whenever some head lacks a per-head one),
`forward` selects the merge strategy structurally: if every head carries a
per-head `Wo`, the final output is the elementwise sum over heads of
`headOutput · headWo` with the combined bias `bo` (when present) added to
every row; otherwise it is the horizontal concatenation of all head
outputs multiplied by the combined `Wo`. -/
theorem forward_merge_strategy (e : Engine) (emb : Mat) (hWF : WFengine e)
    (hemb : WFemb e emb)
    (hcomb : (∃ hd ∈ e.heads, hd.Wo = none) →
      ∃ W, e.Wo = some W ∧ MatShape (e.numHeads * e.headDim) e.embedDim W) :
    ∃ r, forward e emb = .ok r ∧
      ((∀ hd ∈ e.heads, hd.Wo.isSome) →
        r.output = addBoRows (sumMatrices (contribsOf e emb)) e.bo) ∧
      ((∃ hd ∈ e.heads, hd.Wo = none) →
        ∃ W, e.Wo = some W ∧ r.output = matmulP (concatOf e emb) W) := by
  by_cases hall : ∀ hd ∈ e.heads, hd.Wo.isSome
  · refine ⟨_, forward_perHead_ok e emb hWF hemb hall, fun _ => rfl, ?_⟩
    rintro ⟨hd0, hmem, hnone⟩
    have := hall hd0 hmem
    rw [hnone] at this
    cases this
  · push_neg at hall
    obtain ⟨hd0, hmem, hnone⟩ := hall
    have hnone2 : hd0.Wo = none := Option.not_isSome_iff_eq_none.mp hnone
    obtain ⟨W, hWo, hWs⟩ := hcomb ⟨hd0, hmem, hnone2⟩
    refine ⟨_, forward_concat_ok e emb hWF hemb hd0 hmem hnone2 W hWo hWs, ?_, ?_⟩
    · intro h
      have := h hd0 hmem
      rw [hnone2] at this
      cases this
    · intro _
      exact ⟨W, hWo, rfl⟩

/-! Concrete 1×1 example engines for the witnesses. -/

/-- A 1-dimensional head carrying a per-head `Wo`. -/
def exHead1 : Head :=
  { Wq := some [[1]], Wk := some [[1]], Wv := some [[1]], Wo := some [[1]],
    bq := none, bk := none, bv := none }

/-- A 1-dimensional head without a per-head `Wo`. -/
def exHeadNoWo : Head :=
  { Wq := some [[1]], Wk := some [[1]], Wv := some [[1]], Wo := none,
    bq := none, bk := none, bv := none }

/-- A well-formed 1-head engine whose single head has a per-head `Wo`. -/
def exEngineAllWo : Engine :=
  { embedDim := 1, numHeads := 1, headDim := 1, temperature := 1,
    heads := [exHead1], Wo := some [[1]], bo := none, isRealModel := false,
    modelName := none, useBias := false }

/-- A well-formed 1-head engine whose single head lacks a per-head `Wo`. -/
def exEngineNoWo : Engine :=
  { embedDim := 1, numHeads := 1, headDim := 1, temperature := 1,
    heads := [exHeadNoWo], Wo := some [[1]], bo := none, isRealModel := false,
    modelName := none, useBias := false }

theorem exMatShape11 : MatShape 1 1 ([[1]] : Mat) :=
  ⟨by simp, by intro r hr; simp at hr; rw [hr]; simp⟩

theorem exHead1_WF : WFhead 1 1 exHead1 :=
  ⟨⟨[[1]], rfl, exMatShape11⟩, ⟨[[1]], rfl, exMatShape11⟩, ⟨[[1]], rfl, exMatShape11⟩,
    Or.inr ⟨[[1]], rfl, exMatShape11⟩, Or.inl rfl, Or.inl rfl, Or.inl rfl⟩

theorem exHeadNoWo_WF : WFhead 1 1 exHeadNoWo :=
  ⟨⟨[[1]], rfl, exMatShape11⟩, ⟨[[1]], rfl, exMatShape11⟩, ⟨[[1]], rfl, exMatShape11⟩,
    Or.inl rfl, Or.inl rfl, Or.inl rfl, Or.inl rfl⟩

theorem exEngineAllWo_WF : WFengine exEngineAllWo := by
  refine ⟨by simp [exEngineAllWo], by simp [exEngineAllWo], by simp [exEngineAllWo],
    rfl, ?_, Or.inl rfl⟩
  intro hd hhd
  have : hd = exHead1 := by simpa [exEngineAllWo] using hhd
  rw [this]
  exact exHead1_WF

theorem exEngineNoWo_WF : WFengine exEngineNoWo := by
  refine ⟨by simp [exEngineNoWo], by simp [exEngineNoWo], by simp [exEngineNoWo],
    rfl, ?_, Or.inl rfl⟩
  intro hd hhd
  have : hd = exHeadNoWo := by simpa [exEngineNoWo] using hhd
  rw [this]
  exact exHeadNoWo_WF

theorem exEmb_WF_AllWo : WFemb exEngineAllWo [[(1 : ℝ)]] :=
  ⟨by simp, by intro r hr; simp at hr; rw [hr]; simp [exEngineAllWo]⟩

theorem exEmb_WF_NoWo : WFemb exEngineNoWo [[(1 : ℝ)]] :=
  ⟨by simp, by intro r hr; simp at hr; rw [hr]; simp [exEngineNoWo]⟩

/-- Witness for C1 at the concrete 1×1 engine with a per-head `Wo`. -/
theorem forward_merge_strategy_witness :
    ∃ r, forward exEngineAllWo [[(1 : ℝ)]] = .ok r ∧
      ((∀ hd ∈ exEngineAllWo.heads, hd.Wo.isSome) →
        r.output = addBoRows (sumMatrices (contribsOf exEngineAllWo [[(1 : ℝ)]]))
          exEngineAllWo.bo) ∧
      ((∃ hd ∈ exEngineAllWo.heads, hd.Wo = none) →
        ∃ W, exEngineAllWo.Wo = some W ∧
          r.output = matmulP (concatOf exEngineAllWo [[(1 : ℝ)]]) W) :=
  forward_merge_strategy exEngineAllWo [[(1 : ℝ)]] exEngineAllWo_WF exEmb_WF_AllWo
    (fun _ => ⟨[[1]], rfl, by
      refine ⟨by simp [exEngineAllWo], ?_⟩
      intro r hr
      simp at hr
      rw [hr]
      simp [exEngineAllWo]⟩)

/-! ## Claim C8: output shape -/

/-- C8: for every well-formed initialized engine (with a well-shaped
combined `Wo` available whenever some head lacks a per-head one) and every
embeddings matrix of shape `[seqLen × embedDim]`, `forward` succeeds and
its final output has shape `[seqLen × embedDim]`, on both merge paths. -/
theorem forward_output_shape (e : Engine) (emb : Mat) (hWF : WFengine e)
    (hemb : WFemb e emb)
    (hcomb : (∃ hd ∈ e.heads, hd.Wo = none) →
      ∃ W, e.Wo = some W ∧ MatShape (e.numHeads * e.headDim) e.embedDim W) :
    ∃ r, forward e emb = .ok r ∧ r.output.length = emb.length ∧
      ∀ row ∈ r.output, row.length = e.embedDim := by
  obtain ⟨hnH, hDpos, hEpos, hlen, hheads, hbo⟩ := hWF
  have hembshape : MatShape emb.length e.embedDim emb := ⟨rfl, hemb.2⟩
  have hslen : 0 < emb.length := List.length_pos.mpr hemb.1
  by_cases hall : ∀ hd ∈ e.heads, hd.Wo.isSome
  · refine ⟨_, forward_perHead_ok e emb
      ⟨hnH, hDpos, hEpos, hlen, hheads, hbo⟩ hemb hall, ?_⟩
    have hcsh := contribs_shape e emb hheads hall hembshape hslen hEpos hDpos
    have hcne : contribsOf e emb ≠ [] := by
      intro h
      have : (contribsOf e emb).length = e.numHeads := by
        rw [contribsOf, List.length_map, hlen]
      rw [h] at this
      simp at this
      omega
    have := addBoRows_shape (sumMatrices_shape (contribsOf e emb) hcne hcsh) hbo
    exact ⟨this.1, this.2⟩
  · push_neg at hall
    obtain ⟨hd0, hmem, hnone⟩ := hall
    have hnone2 : hd0.Wo = none := Option.not_isSome_iff_eq_none.mp hnone
    obtain ⟨W, hWo, hWs⟩ := hcomb ⟨hd0, hmem, hnone2⟩
    refine ⟨_, forward_concat_ok e emb
      ⟨hnH, hDpos, hEpos, hlen, hheads, hbo⟩ hemb hd0 hmem hnone2 W hWo hWs, ?_⟩
    have hcsh : MatShape emb.length (e.numHeads * e.headDim) (concatOf e emb) := by
      have h1 : ∀ M ∈ e.heads.map (fun hd =>
          (headTraceP e.headDim e.temperature emb hd).output),
          MatShape emb.length e.headDim M := by
        intro M hM
        simp only [List.mem_map] at hM
        obtain ⟨hd, hhd, hMeq⟩ := hM
        rw [← hMeq]
        exact (headTraceP_shapes e.headDim e.temperature emb hd (hheads hd hhd)
          hembshape hslen hEpos hDpos).1
      have h2 := hcatP_shape (e.heads.map (fun hd =>
        (headTraceP e.headDim e.temperature emb hd).output)) h1
      rw [List.length_map, hlen] at h2
      exact h2
    have := matmulP_shape hcsh hWs (Nat.mul_pos hnH hDpos)
    exact ⟨this.1, this.2⟩

/-- Witness for C8 at the concrete 1×1 engine without per-head `Wo`
(concatenate-then-project path). -/
theorem forward_output_shape_witness :
    ∃ r, forward exEngineNoWo [[(1 : ℝ)]] = .ok r ∧
      r.output.length = ([[(1 : ℝ)]] : Mat).length ∧
      ∀ row ∈ r.output, row.length = exEngineNoWo.embedDim :=
  forward_output_shape exEngineNoWo [[(1 : ℝ)]] exEngineNoWo_WF exEmb_WF_NoWo
    (fun _ => ⟨[[1]], rfl, by
      refine ⟨by simp [exEngineNoWo], ?_⟩
      intro r hr
      simp at hr
      rw [hr]
      simp [exEngineNoWo]⟩)

/-! ## Claim C4: forward before initialization -/

/-- C4 (counterexample): on a freshly constructed (uninitialized) engine,
`forward` fails with a generic runtime `TypeError` (reading `heads[0]`,
which is `undefined`), not with the spec's `NotInitialized` error class —
which the source never constructs. -/
theorem forward_uninitialized_cex :
    forward (mkEngine 4 2 1) [[(1 : ℝ), 1, 1, 1]] = .error .typeError ∧
    JsError.typeError ≠ JsError.notInitialized := by
  constructor
  · rfl
  · intro h
    cases h

/-- C4 (amended): calling `forward` on an engine in the uninitialized
state (constructed, neither initializer called) fails for every embeddings
argument and every constructor argument — but with a runtime `TypeError`,
not a dedicated `NotInitialized` error. -/
theorem forward_uninitialized_fails (embedDim numHeads : Nat) (t : ℝ) (emb : Mat) :
    forward (mkEngine embedDim numHeads t) emb = .error .typeError := by
  cases numHeads with
  | zero => rfl
  | succ n =>
    unfold forward
    rw [show (mkEngine embedDim (n + 1) t).numHeads = n + 1 from rfl,
      show List.range (n + 1) = 0 :: List.range' 1 n from by
        rw [List.range_eq_range', List.range'_succ]]
    rfl

/-! ## Claim C5: weight-bundle validation -/

/-- C5 (amended): when the `heads` field is absent, both loaders throw
their validation `Error` before touching the engine, leaving its state
unchanged.  (Empty `heads` or heads missing `Wq/Wk/Wv` are *not*
validated — see the counterexample.) -/
theorem loaders_absent_heads (e : Engine) (w : RawBundle) (nm : Option String)
    (h : w.heads = none) :
    loadRealWeights e w nm = (some (.jsError "Invalid weight structure"), e) ∧
    loadPreExtractedWeights e w nm =
      (some (.jsError "Invalid pre-extracted weight structure"), e) := by
  obtain ⟨hs, Wo, bo, cfg, mn, mc⟩ := w
  simp only at h
  subst h
  constructor
  · rfl
  · rfl

/-- Witness for C5's amended theorem: a concrete bundle with no `heads`. -/
theorem loaders_absent_heads_witness :
    loadRealWeights (mkEngine 2 2 1)
      { heads := none, Wo := none, bo := none, config := none,
        model_name := none, modelConfigIsRealModel := none } none =
      (some (.jsError "Invalid weight structure"), mkEngine 2 2 1) ∧
    loadPreExtractedWeights (mkEngine 2 2 1)
      { heads := none, Wo := none, bo := none, config := none,
        model_name := none, modelConfigIsRealModel := none } none =
      (some (.jsError "Invalid pre-extracted weight structure"), mkEngine 2 2 1) :=
  loaders_absent_heads (mkEngine 2 2 1)
    { heads := none, Wo := none, bo := none, config := none,
      model_name := none, modelConfigIsRealModel := none } none rfl

/-- A bundle whose `heads` array is present but empty, with a full config
block: the claimed `MalformedWeights` validation does not exist for it. -/
def emptyHeadsBundle : RawBundle :=
  { heads := some []
    Wo := none
    bo := none
    config := some { num_heads := some 3, head_dim := some 2, embed_dim := some 6 }
    model_name := none
    modelConfigIsRealModel := none }

/-- C5 (counterexample): on a bundle with an *empty* `heads` array (and a
config block), `loadPreExtractedWeights` does not fail with the validation
error: it overwrites most engine fields and only then hits a `TypeError`
reading `heads[0].bq` — the engine is left mutated (`numHeads` becomes 3,
a model name is set), not untouched. -/
theorem loadPre_empty_heads_cex :
    (loadPreExtractedWeights (mkEngine 6 2 1) emptyHeadsBundle none).1 =
      some JsError.typeError ∧
    JsError.typeError ≠ JsError.jsError "Invalid pre-extracted weight structure" ∧
    (loadPreExtractedWeights (mkEngine 6 2 1) emptyHeadsBundle none).2.numHeads = 3 ∧
    (mkEngine 6 2 1).numHeads = 2 ∧
    (loadPreExtractedWeights (mkEngine 6 2 1) emptyHeadsBundle none).2.modelName =
      some "Pre-extracted Model" ∧
    (mkEngine 6 2 1).modelName = none := by
  refine ⟨rfl, ?_, rfl, rfl, rfl, rfl⟩
  intro h
  cases h

/-! ## Claim C3: random initialization -/

theorem randomMatrix_shape (rand : Nat → Nat → ℝ) (rows cols : Nat) :
    MatShape rows cols (MathUtils.randomMatrix rand rows cols) := by
  constructor
  · simp [MathUtils.randomMatrix]
  · intro r hr
    simp only [MathUtils.randomMatrix, List.mem_map] at hr
    obtain ⟨i, _, hi⟩ := hr
    rw [← hi]
    simp

/-- C3 (counterexample): the heads built by `initializeRandomWeights` *do*
carry a per-head `Wo` (line 42 of `src/js/mhsa.js`): the first head of a
randomly initialized 2-head engine has `Wo ≠ null`, contradicting "no
per-head `Wo`" — and hence the concatenate-then-project path is not taken
either. -/
theorem initializeRandomWeights_cex :
    ((initializeRandomWeights (mkEngine 4 2 1) (fun _ _ _ => 1 / 2)).heads.headD
      default).Wo ≠ none ∧
    (initializeRandomWeights (mkEngine 4 2 1) (fun _ _ _ => 1 / 2)).heads.length = 2 := by
  constructor
  · intro h
    simp [initializeRandomWeights, mkEngine, List.range_succ] at h
  · simp [initializeRandomWeights, mkEngine]

/-- C3 (amended): `initializeRandom` derives `headDim = ⌊embedDim/numHeads⌋`
and builds exactly `numHeads` heads, each carrying Xavier-initialized
`Wq, Wk, Wv` *and a per-head `Wo` of shape `[headDim × embedDim]`*, with no
biases, plus one combined `Wo` of shape `[numHeads·headDim × embedDim]`;
consequently a randomly initialized engine's `forward` always takes the
per-head project-then-sum merge path (not the concatenate-then-project
one). -/
theorem initializeRandomWeights_structure (embedDim numHeads : Nat) (t : ℝ)
    (rand : Nat → Nat → Nat → ℝ) (emb : Mat) (hnH : 0 < numHeads)
    (hdiv : numHeads ≤ embedDim) (hembne : emb ≠ [])
    (hrect : ∀ r ∈ emb, r.length = embedDim) :
    (initializeRandomWeights (mkEngine embedDim numHeads t) rand).headDim =
      embedDim / numHeads ∧
    (initializeRandomWeights (mkEngine embedDim numHeads t) rand).heads.length =
      numHeads ∧
    (∀ hd ∈ (initializeRandomWeights (mkEngine embedDim numHeads t) rand).heads,
      hd.Wq.isSome ∧ hd.Wk.isSome ∧ hd.Wv.isSome ∧ hd.Wo.isSome ∧
      hd.bq = none ∧ hd.bk = none ∧ hd.bv = none) ∧
    (∃ W, (initializeRandomWeights (mkEngine embedDim numHeads t) rand).Wo = some W ∧
      MatShape (numHeads * (embedDim / numHeads)) embedDim W) ∧
    (∃ r, forward (initializeRandomWeights (mkEngine embedDim numHeads t) rand) emb
        = .ok r ∧
      r.output = addBoRows (sumMatrices
        (contribsOf (initializeRandomWeights (mkEngine embedDim numHeads t) rand) emb))
        (initializeRandomWeights (mkEngine embedDim numHeads t) rand).bo ∧
      r.headProjectedOutputs = some
        (contribsOf (initializeRandomWeights (mkEngine embedDim numHeads t) rand) emb)) := by
  have hD : 0 < embedDim / numHeads := Nat.div_pos hdiv hnH
  have hE : 0 < embedDim := Nat.lt_of_lt_of_le hnH hdiv
  have hWFhd : ∀ hd ∈ (initializeRandomWeights (mkEngine embedDim numHeads t) rand).heads,
      WFhead embedDim (embedDim / numHeads) hd := by
    intro hd hhd
    simp only [initializeRandomWeights, mkEngine, List.mem_map] at hhd
    obtain ⟨h, _, hh⟩ := hhd
    rw [← hh]
    exact ⟨⟨_, rfl, randomMatrix_shape _ _ _⟩, ⟨_, rfl, randomMatrix_shape _ _ _⟩,
      ⟨_, rfl, randomMatrix_shape _ _ _⟩,
      Or.inr ⟨_, rfl, randomMatrix_shape _ _ _⟩,
      Or.inl rfl, Or.inl rfl, Or.inl rfl⟩
  have hall : ∀ hd ∈ (initializeRandomWeights (mkEngine embedDim numHeads t) rand).heads,
      hd.Wo.isSome := by
    intro hd hhd
    simp only [initializeRandomWeights, mkEngine, List.mem_map] at hhd
    obtain ⟨h, _, hh⟩ := hhd
    rw [← hh]
    rfl
  have hWF : WFengine (initializeRandomWeights (mkEngine embedDim numHeads t) rand) := by
    refine ⟨hnH, hD, hE, by simp [initializeRandomWeights, mkEngine], hWFhd, Or.inl rfl⟩
  have hfwd := forward_perHead_ok (initializeRandomWeights (mkEngine embedDim numHeads t) rand)
    emb hWF ⟨hembne, hrect⟩ hall
  refine ⟨rfl, by simp [initializeRandomWeights, mkEngine], ?_, ?_, ?_⟩
  · intro hd hhd
    simp only [initializeRandomWeights, mkEngine, List.mem_map] at hhd
    obtain ⟨h, _, hh⟩ := hhd
    rw [← hh]
    exact ⟨rfl, rfl, rfl, rfl, rfl, rfl, rfl⟩
  · exact ⟨_, rfl, randomMatrix_shape _ _ _⟩
  · exact ⟨_, hfwd, rfl, rfl⟩

/-- Witness for C3's amended theorem at `embedDim = 4`, `numHeads = 2`. -/
theorem initializeRandomWeights_structure_witness :
    (initializeRandomWeights (mkEngine 4 2 1) (fun _ _ _ => 1 / 2)).headDim = 4 / 2 ∧
    (initializeRandomWeights (mkEngine 4 2 1) (fun _ _ _ => 1 / 2)).heads.length = 2 ∧
    (∀ hd ∈ (initializeRandomWeights (mkEngine 4 2 1) (fun _ _ _ => 1 / 2)).heads,
      hd.Wq.isSome ∧ hd.Wk.isSome ∧ hd.Wv.isSome ∧ hd.Wo.isSome ∧
      hd.bq = none ∧ hd.bk = none ∧ hd.bv = none) ∧
    (∃ W, (initializeRandomWeights (mkEngine 4 2 1) (fun _ _ _ => 1 / 2)).Wo = some W ∧
      MatShape (2 * (4 / 2)) 4 W) ∧
    (∃ r, forward (initializeRandomWeights (mkEngine 4 2 1) (fun _ _ _ => 1 / 2))
        [[(1 : ℝ), 0, 0, 0]] = .ok r ∧
      r.output = addBoRows (sumMatrices
        (contribsOf (initializeRandomWeights (mkEngine 4 2 1) (fun _ _ _ => 1 / 2))
          [[(1 : ℝ), 0, 0, 0]]))
        (initializeRandomWeights (mkEngine 4 2 1) (fun _ _ _ => 1 / 2)).bo ∧
      r.headProjectedOutputs = some
        (contribsOf (initializeRandomWeights (mkEngine 4 2 1) (fun _ _ _ => 1 / 2))
          [[(1 : ℝ), 0, 0, 0]])) :=
  initializeRandomWeights_structure 4 2 1 (fun _ _ _ => 1 / 2) [[(1 : ℝ), 0, 0, 0]]
    (by norm_num) (by norm_num) (by simp)
    (by intro r hr; simp at hr; rw [hr]; simp)

/-! ## Claim C10: missing per-head `Wo` after a pre-extracted load -/

/-- Any successful `loadPreExtractedWeights` leaves the combined `Wo`
field `null` (line 114: per-head `Wo` is supposed to replace it). -/
theorem loadPre_ok_combined_Wo_none (e : Engine) (w : RawBundle)
    (nm : Option String) (e2 : Engine)
    (h : loadPreExtractedWeights e w nm = (none, e2)) : e2.Wo = none := by
  unfold loadPreExtractedWeights at h
  repeat' split at h
  all_goals injection h with h1 h2
  all_goals first
    | (subst h2; rfl)
    | simp at h1

/-- `forward` on a well-formed engine whose combined `Wo` is `null` and at
least one of whose heads lacks a per-head `Wo` falls into the
concatenate-then-project branch and hits the `TypeError` of
`matmul(concatenated, null)`. -/
theorem forward_missing_Wo_fails (e : Engine) (emb : Mat) (hWF : WFengine e)
    (hemb : WFemb e emb) (hd0 : Head) (hmem : hd0 ∈ e.heads)
    (hnone : hd0.Wo = none) (hWo : e.Wo = none) :
    forward e emb = .error .typeError := by
  obtain ⟨hnH, hDpos, hEpos, hlen, hheads, hbo⟩ := hWF
  obtain ⟨hembne, hembrect⟩ := hemb
  have hembshape : MatShape emb.length e.embedDim emb := ⟨rfl, hembrect⟩
  have hslen : 0 < emb.length := List.length_pos.mpr hembne
  have hloop := forward_loop_ok e emb hembshape hslen hEpos hDpos e.heads 0
    ([], [], []) (fun i hi => by simp) hheads
  simp only [List.nil_append] at hloop
  have hlt := flatMap_proj_length_lt e.headDim e.temperature emb e.heads hd0
    hmem hnone
  have hne : (e.heads.flatMap (headProjListP e.headDim e.temperature emb)).length
      ≠ e.numHeads := by omega
  unfold forward
  rw [show List.range e.numHeads = List.range' 0 e.heads.length from by
    rw [hlen, List.range_eq_range']]
  rw [hloop]
  rw [show ∀ (x : List HeadOut × List Mat × List Mat)
      (f : List HeadOut × List Mat × List Mat → Except JsError ForwardOut),
      (Except.ok x : Except JsError (List HeadOut × List Mat × List Mat)) >>= f = f x
    from fun x f => rfl]
  simp only
  rw [if_neg hne]
  split
  next heq => rfl
  next W2 heq => rw [hWo] at heq; cases heq

/-- C10: after `loadPreExtractedWeights` the combined `Wo` is `null`, so on
a well-formed per-head bundle in which at least one loaded head lacks a
per-head `Wo`, `forward` takes the concatenate branch and fails with the
`TypeError` of multiplying by a `null` `Wo` — its error branch is
reachable despite a well-formed bundle. -/
theorem loadPre_missing_head_Wo_unsafe (e0 : Engine) (w : RawBundle)
    (nm : Option String) (e : Engine)
    (hload : loadPreExtractedWeights e0 w nm = (none, e)) (emb : Mat)
    (hWF : WFengine e) (hemb : WFemb e emb) (hd0 : Head) (hmem : hd0 ∈ e.heads)
    (hnone : hd0.Wo = none) :
    e.Wo = none ∧ forward e emb = .error .typeError := by
  have hWo := loadPre_ok_combined_Wo_none e0 w nm e hload
  exact ⟨hWo, forward_missing_Wo_fails e emb hWF hemb hd0 hmem hnone hWo⟩

/-- A well-formed two-head 1×1 bundle whose second head lacks `Wo`. -/
def mixedWoBundle : RawBundle :=
  { heads := some
      [{ Wq := some [[1]], Wk := some [[1]], Wv := some [[1]], Wo := some [[1]],
         bq := none, bk := none, bv := none },
       { Wq := some [[1]], Wk := some [[1]], Wv := some [[1]], Wo := none,
         bq := none, bk := none, bv := none }]
    Wo := none
    bo := none
    config := none
    model_name := none
    modelConfigIsRealModel := none }

/-- The engine state `loadPreExtractedWeights` produces from
`mixedWoBundle`. -/
def exLoadedMixed : Engine :=
  { embedDim := 1, numHeads := 2, headDim := 1, temperature := 1,
    heads := [exHead1, exHeadNoWo], Wo := none, bo := none,
    isRealModel := true, modelName := some "Pre-extracted Model",
    useBias := false }

theorem exLoadedMixed_WF : WFengine exLoadedMixed := by
  refine ⟨by simp [exLoadedMixed], by simp [exLoadedMixed], by simp [exLoadedMixed],
    rfl, ?_, Or.inl rfl⟩
  intro hd hhd
  simp only [exLoadedMixed, List.mem_cons, List.not_mem_nil, or_false] at hhd
  rcases hhd with rfl | rfl
  · exact exHead1_WF
  · exact exHeadNoWo_WF

/-- Witness for C10 on the concrete mixed bundle. -/
theorem loadPre_missing_head_Wo_unsafe_witness :
    exLoadedMixed.Wo = none ∧
    forward exLoadedMixed [[(1 : ℝ)]] = .error .typeError :=
  loadPre_missing_head_Wo_unsafe (mkEngine 1 2 1) mixedWoBundle none exLoadedMixed
    rfl [[(1 : ℝ)]] exLoadedMixed_WF
    ⟨by simp, by intro r hr; simp at hr; rw [hr]; simp [exLoadedMixed]⟩
    exHeadNoWo (List.mem_cons.mpr (Or.inr (List.mem_cons_self _ _))) rfl

/-! ## Algebra for the concat-vs-sum equivalence (C2) -/

theorem zipWith_add_assoc : ∀ (r1 r2 r3 : List ℝ),
    List.zipWith (fun a b => a + b) (List.zipWith (fun a b => a + b) r1 r2) r3 =
      List.zipWith (fun a b => a + b) r1 (List.zipWith (fun a b => a + b) r2 r3) := by
  intro r1
  induction r1 with
  | nil => intro r2 r3; simp
  | cons x xs ih =>
    intro r2 r3
    cases r2 with
    | nil => simp
    | cons y ys =>
      cases r3 with
      | nil => simp
      | cons z zs => simp [ih, add_assoc]

theorem matAddP_assoc : ∀ (A B C : Mat),
    matAddP (matAddP A B) C = matAddP A (matAddP B C) := by
  intro A
  induction A with
  | nil => intro B C; simp [matAddP]
  | cons a At ih =>
    intro B C
    cases B with
    | nil => simp [matAddP]
    | cons b Bt =>
      cases C with
      | nil => simp [matAddP]
      | cons c Ct =>
        simp only [matAddP, List.zipWith_cons_cons]
        exact List.cons_eq_cons.mpr ⟨zipWith_add_assoc a b c, by
          have := ih Bt Ct
          simpa [matAddP] using this⟩

theorem matAddP_foldl_pull (c : Mat) : ∀ (zt : List Mat) (z : Mat),
    matAddP c (zt.foldl matAddP z) = zt.foldl matAddP (matAddP c z) := by
  intro zt
  induction zt with
  | nil => intro z; rfl
  | cons w wt ih =>
    intro z
    rw [List.foldl_cons, List.foldl_cons, ih (matAddP z w), ← matAddP_assoc]

theorem matAddP_sumMatrices (c : Mat) : ∀ (zs : List Mat), zs ≠ [] →
    matAddP c (sumMatrices zs) = zs.foldl matAddP c := by
  intro zs hne
  cases zs with
  | nil => exact absurd rfl hne
  | cons z zt =>
    rw [show sumMatrices (z :: zt) = zt.foldl matAddP z from rfl,
      List.foldl_cons, matAddP_foldl_pull]

theorem dotCol_append (a1 a2 : List ℝ) (B1 B2 : Mat) (j : Nat)
    (h : a1.length = B1.length) :
    dotCol (a1 ++ a2) (B1 ++ B2) j = dotCol a1 B1 j + dotCol a2 B2 j := by
  unfold dotCol
  rw [List.zip_append h, List.map_append, List.sum_append]

theorem headD_append {α : Type} (l1 l2 : List α) (d : α) (h : l1 ≠ []) :
    (l1 ++ l2).headD d = l1.headD d := by
  cases l1 with
  | nil => exact absurd rfl h
  | cons x xs => rfl

theorem flatten_shape {D E : Nat} : ∀ (Ws : List Mat),
    (∀ w ∈ Ws, MatShape D E w) → MatShape (Ws.length * D) E Ws.flatten := by
  intro Ws
  induction Ws with
  | nil => intro _; exact ⟨by simp, by simp⟩
  | cons W Wt ih =>
    intro h
    have hW := h W (by simp)
    have ht := ih (fun w hw => h w (by simp [hw]))
    constructor
    · rw [List.flatten_cons, List.length_append, hW.1, ht.1, List.length_cons,
        Nat.succ_mul]
      omega
    · intro r hr
      rw [List.flatten_cons] at hr
      rcases List.mem_append.mp hr with h1 | h1
      · exact hW.2 r h1
      · exact ht.2 r h1

theorem zipWith_append_nil : ∀ (o : Mat) (s : Nat), o.length = s →
    List.zipWith (fun a b => a ++ b) o (List.replicate s ([] : List ℝ)) = o := by
  intro o
  induction o with
  | nil => intro s _; simp
  | cons r ot ih =>
    intro s hlen
    cases s with
    | zero => simp at hlen
    | succ n =>
      rw [List.replicate_succ, List.zipWith_cons_cons, List.append_nil,
        ih n (by simpa using hlen)]

theorem matmulP_hcat_step {D E w2 : Nat} (B1 B2 : Mat) (hB1 : MatShape D E B1)
    (hB2 : MatShape w2 E B2) (hD : 0 < D) (hw2 : 0 < w2) :
    ∀ (A1 A2 : Mat), (∀ r ∈ A1, r.length = D) → (∀ r ∈ A2, r.length = w2) →
      matmulP (List.zipWith (fun r1 r2 => r1 ++ r2) A1 A2) (B1 ++ B2) =
        matAddP (matmulP A1 B1) (matmulP A2 B2) := by
  intro A1
  induction A1 with
  | nil => intro A2 _ _; simp [matmulP, matAddP]
  | cons a1 A1t ih =>
    intro A2 h1 h2
    cases A2 with
    | nil => simp [matmulP, matAddP]
    | cons a2 A2t =>
      rw [List.zipWith_cons_cons]
      simp only [matmulP, List.map_cons, matAddP, List.zipWith_cons_cons]
      have hB12 : ((B1 ++ B2).headD []).length = E := by
        rw [headD_append B1 B2 [] (hB1.ne_nil hD), hB1.headD_len hD]
      have hrow : (List.range (((B1 ++ B2).headD []).length)).map
          (fun j => dotCol (a1 ++ a2) (B1 ++ B2) j) =
          List.zipWith (fun a b => a + b)
            ((List.range ((B1.headD []).length)).map (fun j => dotCol a1 B1 j))
            ((List.range ((B2.headD []).length)).map (fun j => dotCol a2 B2 j)) := by
        rw [hB12, hB1.headD_len hD, hB2.headD_len hw2, zipWith_map_same]
        refine List.map_congr_left (fun j _ => ?_)
        exact dotCol_append a1 a2 B1 B2 j (by rw [h1 a1 (by simp), hB1.1])
      rw [hrow]
      have ht := ih A2t (fun r hr => h1 r (by simp [hr]))
        (fun r hr => h2 r (by simp [hr]))
      simp only [matmulP, matAddP] at ht
      rw [ht]

/-- The central algebraic fact behind C2: multiplying the horizontal
concatenation of the head outputs by the vertical stack of the per-head
`Wo` matrices equals the elementwise sum of the per-head products. -/
theorem hcat_matmul {s D E : Nat} (hs : 0 < s) (hD : 0 < D) (hE : 0 < E) :
    ∀ (outs Ws : List Mat), outs.length = Ws.length → outs ≠ [] →
      (∀ M ∈ outs, MatShape s D M) → (∀ W ∈ Ws, MatShape D E W) →
      matmulP (hcatP outs s) Ws.flatten =
        sumMatrices (List.zipWith matmulP outs Ws) := by
  intro outs
  induction outs with
  | nil => intro Ws _ hne _ _; exact absurd rfl hne
  | cons o os ih =>
    intro Ws hlen hne houts hWs
    cases Ws with
    | nil => simp at hlen
    | cons W1 Ws2 =>
      have ho := houts o (by simp)
      have hW1 := hWs W1 (by simp)
      cases os with
      | nil =>
        have hWs2 : Ws2 = [] := by
          simp only [List.length_cons, List.length_nil] at hlen
          exact List.length_eq_zero.mp (by omega)
        subst hWs2
        rw [show hcatP [o] s = List.zipWith (fun r1 r2 => r1 ++ r2) o
            (List.replicate s ([] : List ℝ)) from rfl,
          zipWith_append_nil o s ho.1]
        simp [sumMatrices]
      | cons o2 os2 =>
        cases Ws2 with
        | nil => simp at hlen
        | cons W2 Ws3 =>
          have hlen2 : (o2 :: os2).length = (W2 :: Ws3).length := by
            simpa using hlen
          have hflat2 : MatShape ((W2 :: Ws3).length * D) E (W2 :: Ws3).flatten :=
            flatten_shape (W2 :: Ws3) (fun w hw => hWs w (by simp [hw]))
          have hcat2 : ∀ r ∈ hcatP (o2 :: os2) s, r.length = (W2 :: Ws3).length * D := by
            have := hcatP_shape (o2 :: os2) (fun M hM => houts M (by simp [hM]))
            rw [← hlen2]
            exact this.2
          have hw2pos : 0 < (W2 :: Ws3).length * D := by
            simp only [List.length_cons]
            exact Nat.mul_pos (Nat.succ_pos _) hD
          rw [show hcatP (o :: o2 :: os2) s = List.zipWith (fun r1 r2 => r1 ++ r2) o
              (hcatP (o2 :: os2) s) from rfl,
            show (W1 :: W2 :: Ws3).flatten = W1 ++ (W2 :: Ws3).flatten from rfl,
            matmulP_hcat_step W1 (W2 :: Ws3).flatten hW1 hflat2 hD hw2pos o
              (hcatP (o2 :: os2) s) ho.2 hcat2,
            ih (W2 :: Ws3) hlen2 (by simp) (fun M hM => houts M (by simp [hM]))
              (fun w hw => hWs w (by simp [hw])),
            matAddP_sumMatrices (matmulP o W1) (List.zipWith matmulP (o2 :: os2)
              (W2 :: Ws3)) (by simp),
            show List.zipWith matmulP (o :: o2 :: os2) (W1 :: W2 :: Ws3)
              = matmulP o W1 :: List.zipWith matmulP (o2 :: os2) (W2 :: Ws3) from rfl]
          rfl

/-! ## Claim C2: legacy vs per-head bundles

A family of mathematically equivalent bundle pairs: `ps` lists, per head,
the `(Wq, Wk, Wv)` triple together with that head's output projection
`Wo`.  The legacy bundle drops the per-head `Wo`s and carries their
vertical stack as the combined `Wo`; the per-head bundle carries them
per head and no combined `Wo`. -/

/-- One legacy raw head (no per-head `Wo`, no biases). -/
def legacyHeadR (p : (Mat × Mat × Mat) × Mat) : RawHead :=
  { Wq := some p.1.1
    Wk := some p.1.2.1
    Wv := some p.1.2.2
    Wo := none
    bq := none
    bk := none
    bv := none }

/-- One per-head-format raw head (with its `Wo`, no biases). -/
def perHeadHeadR (p : (Mat × Mat × Mat) × Mat) : RawHead :=
  { Wq := some p.1.1
    Wk := some p.1.2.1
    Wv := some p.1.2.2
    Wo := some p.2
    bq := none
    bk := none
    bv := none }

/-- The stored head the engine keeps for a legacy head. -/
def legacyHeadH (p : (Mat × Mat × Mat) × Mat) : Head :=
  { Wq := some p.1.1
    Wk := some p.1.2.1
    Wv := some p.1.2.2
    Wo := none
    bq := none
    bk := none
    bv := none }

/-- The stored head the engine keeps for a per-head-format head. -/
def perHeadHeadH (p : (Mat × Mat × Mat) × Mat) : Head :=
  { Wq := some p.1.1
    Wk := some p.1.2.1
    Wv := some p.1.2.2
    Wo := some p.2
    bq := none
    bk := none
    bv := none }

/-- The vertical stack (row-wise concatenation) of the per-head `Wo`s. -/
def stackWo (ps : List ((Mat × Mat × Mat) × Mat)) : Mat :=
  (ps.map (fun p => p.2)).flatten

/-- The legacy bundle: heads without `Wo`, combined `Wo` = the stack. -/
def legacyBundle (ps : List ((Mat × Mat × Mat) × Mat)) : RawBundle :=
  { heads := some (ps.map legacyHeadR)
    Wo := some (stackWo ps)
    bo := none
    config := none
    model_name := none
    modelConfigIsRealModel := none }

/-- The per-head bundle: each head carries its `Wo`; no combined `Wo`. -/
def perHeadBundle (ps : List ((Mat × Mat × Mat) × Mat)) : RawBundle :=
  { heads := some (ps.map perHeadHeadR)
    Wo := none
    bo := none
    config := none
    model_name := none
    modelConfigIsRealModel := none }

/-- The engine state `loadRealWeights` builds from the legacy bundle. -/
def legacyEngine (ps : List ((Mat × Mat × Mat) × Mat)) (E D : Nat) (t : ℝ) :
    Engine :=
  { embedDim := E
    numHeads := ps.length
    headDim := D
    temperature := t
    heads := ps.map legacyHeadH
    Wo := some (stackWo ps)
    bo := none
    isRealModel := true
    modelName := none
    useBias := false }

/-- The engine state `loadPreExtractedWeights` builds from the per-head
bundle. -/
def perHeadEngine (ps : List ((Mat × Mat × Mat) × Mat)) (E D : Nat) (t : ℝ) :
    Engine :=
  { embedDim := E
    numHeads := ps.length
    headDim := D
    temperature := t
    heads := ps.map perHeadHeadH
    Wo := none
    bo := none
    isRealModel := true
    modelName := some "Pre-extracted Model"
    useBias := false }

theorem legacyHeadR_Wq (p : (Mat × Mat × Mat) × Mat) :
    (legacyHeadR p).Wq = some p.1.1 := rfl

theorem perHeadHeadR_Wq (p : (Mat × Mat × Mat) × Mat) :
    (perHeadHeadR p).Wq = some p.1.1 := rfl

theorem loadReal_legacy (ps : List ((Mat × Mat × Mat) × Mat)) (E D : Nat)
    (t : ℝ) (a b : Nat) (hE : 0 < E) (hne : ps ≠ [])
    (hshape : ∀ p ∈ ps, MatShape E D p.1.1) :
    loadRealWeights (mkEngine a b t) (legacyBundle ps) none =
      (none, legacyEngine ps E D t) := by
  cases ps with
  | nil => exact absurd rfl hne
  | cons p0 pt =>
    have hq := hshape p0 (by simp)
    cases hq0 : p0.1.1 with
    | nil => exact absurd hq0 (hq.ne_nil hE)
    | cons r0 q0t =>
      rw [hq0] at hq
      unfold loadRealWeights
      simp only [legacyBundle, List.map_cons, List.head?_cons, legacyHeadR_Wq, hq0]
      unfold legacyEngine
      simp only [Prod.mk.injEq, Engine.mk.injEq, mkEngine]
      refine ⟨trivial, hq.1, by simp, hq.2 r0 (by simp), trivial, ?_, trivial,
        trivial, trivial, trivial, rfl⟩
      rw [List.map_cons legacyHeadH, List.map_map, ← hq0]
      exact List.cons_eq_cons.mpr ⟨rfl, List.map_congr_left (fun p _ => rfl)⟩

theorem loadPre_perHead (ps : List ((Mat × Mat × Mat) × Mat)) (E D : Nat)
    (t : ℝ) (a b : Nat) (hE : 0 < E) (hne : ps ≠ [])
    (hshape : ∀ p ∈ ps, MatShape E D p.1.1) :
    loadPreExtractedWeights (mkEngine a b t) (perHeadBundle ps) none =
      (none, perHeadEngine ps E D t) := by
  cases ps with
  | nil => exact absurd rfl hne
  | cons p0 pt =>
    have hq := hshape p0 (by simp)
    cases hq0 : p0.1.1 with
    | nil => exact absurd hq0 (hq.ne_nil hE)
    | cons r0 q0t =>
      rw [hq0] at hq
      unfold loadPreExtractedWeights
      simp only [perHeadBundle, List.map_cons, List.head?_cons, perHeadHeadR_Wq,
        hq0, inferHeadDim, inferEmbedDim, jsOrE, emptyConfig, Option.getD_none]
      unfold perHeadEngine
      simp only [Prod.mk.injEq, Engine.mk.injEq, jsOr, mkEngine]
      refine ⟨trivial, hq.1, by simp, hq.2 r0 (by simp), trivial, ?_, trivial,
        trivial, rfl, trivial, rfl⟩
      rw [List.map_cons perHeadHeadH, List.map_map, ← hq0]
      exact List.cons_eq_cons.mpr ⟨rfl, List.map_congr_left (fun p _ => rfl)⟩

/-- C2: loading the legacy bundle (combined `Wo` = vertical stack of the
per-head `Wo`s, no biases) and the per-head bundle built from the same
`Wq/Wk/Wv/Wo` data succeeds, and the two engines' `forward` outputs are
exactly equal on every well-shaped embeddings matrix: the
concatenate-then-project path and the project-then-sum path compute the
same function. -/
theorem legacy_perHead_forward_equiv (ps : List ((Mat × Mat × Mat) × Mat))
    (E D : Nat) (t : ℝ) (emb : Mat) (a b : Nat) (hE : 0 < E) (hD : 0 < D)
    (hne : ps ≠ [])
    (hshape : ∀ p ∈ ps, MatShape E D p.1.1 ∧ MatShape E D p.1.2.1 ∧
      MatShape E D p.1.2.2 ∧ MatShape D E p.2)
    (hembne : emb ≠ []) (hembrect : ∀ r ∈ emb, r.length = E) :
    loadRealWeights (mkEngine a b t) (legacyBundle ps) none =
      (none, legacyEngine ps E D t) ∧
    loadPreExtractedWeights (mkEngine a b t) (perHeadBundle ps) none =
      (none, perHeadEngine ps E D t) ∧
    ∃ r1 r2, forward (legacyEngine ps E D t) emb = .ok r1 ∧
      forward (perHeadEngine ps E D t) emb = .ok r2 ∧
      r1.output = r2.output := by
  have hslen : 0 < emb.length := List.length_pos.mpr hembne
  have hembshape : MatShape emb.length E emb := ⟨rfl, hembrect⟩
  obtain ⟨p0, hp0⟩ := List.exists_mem_of_ne_nil ps hne
  have hpos : 0 < ps.length := List.length_pos.mpr hne
  have hWs : MatShape (ps.length * D) E (stackWo ps) := by
    have h1 := flatten_shape (ps.map (fun p => p.2)) (fun w hw => by
      simp only [List.mem_map] at hw
      obtain ⟨p, hp, hw2⟩ := hw
      rw [← hw2]
      exact (hshape p hp).2.2.2)
    rwa [List.length_map] at h1
  have hWFhd2 : ∀ p ∈ ps, WFhead E D (perHeadHeadH p) := fun p hp =>
    ⟨⟨p.1.1, rfl, (hshape p hp).1⟩, ⟨p.1.2.1, rfl, (hshape p hp).2.1⟩,
      ⟨p.1.2.2, rfl, (hshape p hp).2.2.1⟩,
      Or.inr ⟨p.2, rfl, (hshape p hp).2.2.2⟩, Or.inl rfl, Or.inl rfl, Or.inl rfl⟩
  have hWF1 : WFengine (legacyEngine ps E D t) := by
    refine ⟨hpos, hD, hE, by simp [legacyEngine], ?_, Or.inl rfl⟩
    intro hd hhd
    simp only [legacyEngine, List.mem_map] at hhd
    obtain ⟨p, hp, hhd2⟩ := hhd
    rw [← hhd2]
    exact ⟨⟨p.1.1, rfl, (hshape p hp).1⟩, ⟨p.1.2.1, rfl, (hshape p hp).2.1⟩,
      ⟨p.1.2.2, rfl, (hshape p hp).2.2.1⟩, Or.inl rfl, Or.inl rfl, Or.inl rfl,
      Or.inl rfl⟩
  have hWF2 : WFengine (perHeadEngine ps E D t) := by
    refine ⟨hpos, hD, hE, by simp [perHeadEngine], ?_, Or.inl rfl⟩
    intro hd hhd
    simp only [perHeadEngine, List.mem_map] at hhd
    obtain ⟨p, hp, hhd2⟩ := hhd
    rw [← hhd2]
    exact hWFhd2 p hp
  have h1 := forward_concat_ok (legacyEngine ps E D t) emb hWF1 ⟨hembne, hembrect⟩
    (legacyHeadH p0) (List.mem_map_of_mem legacyHeadH hp0) rfl (stackWo ps) rfl hWs
  have hall : ∀ hd ∈ (perHeadEngine ps E D t).heads, hd.Wo.isSome := by
    intro hd hhd
    simp only [perHeadEngine, List.mem_map] at hhd
    obtain ⟨p, _, hhd2⟩ := hhd
    rw [← hhd2]
    rfl
  have h2 := forward_perHead_ok (perHeadEngine ps E D t) emb hWF2
    ⟨hembne, hembrect⟩ hall
  refine ⟨loadReal_legacy ps E D t a b hE hne (fun p hp => (hshape p hp).1),
    loadPre_perHead ps E D t a b hE hne (fun p hp => (hshape p hp).1),
    _, _, h1, h2, ?_⟩
  show matmulP (concatOf (legacyEngine ps E D t) emb) (stackWo ps) =
    addBoRows (sumMatrices (contribsOf (perHeadEngine ps E D t) emb)) none
  have hconcat : concatOf (legacyEngine ps E D t) emb =
      hcatP (ps.map (fun p => (headTraceP D t emb (perHeadHeadH p)).output))
        emb.length := by
    unfold concatOf
    rw [show (legacyEngine ps E D t).heads = ps.map legacyHeadH from rfl,
      List.map_map]
    rfl
  have hcontrib : contribsOf (perHeadEngine ps E D t) emb =
      ps.map (fun p => matmulP ((headTraceP D t emb (perHeadHeadH p)).output) p.2) := by
    unfold contribsOf
    rw [show (perHeadEngine ps E D t).heads = ps.map perHeadHeadH from rfl,
      List.map_map]
    rfl
  have houtshape : ∀ M ∈ ps.map (fun p =>
      (headTraceP D t emb (perHeadHeadH p)).output), MatShape emb.length D M := by
    intro M hM
    simp only [List.mem_map] at hM
    obtain ⟨p, hp, hM2⟩ := hM
    rw [← hM2]
    exact (headTraceP_shapes D t emb (perHeadHeadH p) (hWFhd2 p hp) hembshape
      hslen hE hD).1
  have hmain := hcat_matmul hslen hD hE
    (ps.map (fun p => (headTraceP D t emb (perHeadHeadH p)).output))
    (ps.map (fun p => p.2)) (by simp) (by simpa using hne) houtshape
    (fun W hW => by
      simp only [List.mem_map] at hW
      obtain ⟨p, hp, hW2⟩ := hW
      rw [← hW2]
      exact (hshape p hp).2.2.2)
  rw [hconcat, hcontrib, show addBoRows (sumMatrices
    (ps.map (fun p => matmulP ((headTraceP D t emb (perHeadHeadH p)).output) p.2)))
    none = sumMatrices (ps.map (fun p =>
      matmulP ((headTraceP D t emb (perHeadHeadH p)).output) p.2)) from rfl]
  rw [show stackWo ps = (ps.map (fun p => p.2)).flatten from rfl, hmain,
    zipWith_map_same matmulP (fun p => (headTraceP D t emb (perHeadHeadH p)).output)
      (fun p => p.2) ps]

/-- Witness for C2 with a single 1×1 head. -/
theorem legacy_perHead_forward_equiv_witness :
    loadRealWeights (mkEngine 1 1 1)
      (legacyBundle [((([[1]] : Mat), ([[1]] : Mat), ([[1]] : Mat)), ([[1]] : Mat))])
      none =
      (none, legacyEngine [((([[1]] : Mat), ([[1]] : Mat), ([[1]] : Mat)),
        ([[1]] : Mat))] 1 1 1) ∧
    loadPreExtractedWeights (mkEngine 1 1 1)
      (perHeadBundle [((([[1]] : Mat), ([[1]] : Mat), ([[1]] : Mat)), ([[1]] : Mat))])
      none =
      (none, perHeadEngine [((([[1]] : Mat), ([[1]] : Mat), ([[1]] : Mat)),
        ([[1]] : Mat))] 1 1 1) ∧
    ∃ r1 r2,
      forward (legacyEngine [((([[1]] : Mat), ([[1]] : Mat), ([[1]] : Mat)),
        ([[1]] : Mat))] 1 1 1) [[(1 : ℝ)]] = .ok r1 ∧
      forward (perHeadEngine [((([[1]] : Mat), ([[1]] : Mat), ([[1]] : Mat)),
        ([[1]] : Mat))] 1 1 1) [[(1 : ℝ)]] = .ok r2 ∧
      r1.output = r2.output :=
  legacy_perHead_forward_equiv
    [((([[1]] : Mat), ([[1]] : Mat), ([[1]] : Mat)), ([[1]] : Mat))] 1 1 1
    [[(1 : ℝ)]] 1 1 (by norm_num) (by norm_num) (by simp)
    (by
      intro p hp
      simp only [List.mem_cons, List.not_mem_nil, or_false] at hp
      rw [hp]
      exact ⟨exMatShape11, exMatShape11, exMatShape11, exMatShape11⟩)
    (by simp)
    (by intro r hr; simp at hr; rw [hr]; simp)
